import Mathlib

/-!
# Verification of the hydro-sentinel data-preparation pipeline

Shallow embedding, in Lean 4, of the station-identity resolution, cleaning,
resampling and matrix-consolidation pipeline shared by the four
data-preparation workflows of the repository:

* `Data/scripts/prepare_flow_observed.py`     (namespace `FlowObserved`)
* `Data/scripts/prepare_volume_observed.py`   (namespace `VolumeObserved`)
* `Data/scripts/prepare_precip_observed.py`   (namespace `PrecipObserved`)
* `Data/scripts/prepare_precip_model.py`      (namespace `PrecipModel`)
* `Data/hydro_sentinel_ui.py` (consolidator)  (namespace `Consolidator`)

Modelling conventions:

* machine floats are modelled as `ℚ` (the properties under study are about
  which cells/values enter a computation, never about rounding);
* timestamps are modelled as `Int` (already-parsed instants; `Option Int`
  where the source keeps possibly-unparseable values, `none` = `NaT`);
* a `pandas` missing value (`NaN`) is `none : Option ℚ`;
* dictionaries are association lists, with the source's overwrite/lookup
  discipline made explicit;
* Unicode case folding and NFKD decomposition are modelled by finite tables
  covering the repertoire this pipeline manipulates (ASCII plus the accented
  Latin letters of the station names); both are the identity elsewhere.

The file is organised as: all definitions first, then all theorems.
-/

set_option maxHeartbeats 1000000

/-! ## Part 1 — Definitions -/

/-! ### Shared list helpers -/

/-- Python `sorted(set(xs))` for integer codes: remove duplicates, sort
ascending. -/
def sortedSet (xs : List Int) : List Int :=
  (xs.dedup).insertionSort (· ≤ ·)

/-- Last value bound to a key in an association list (a Python `dict` in which
later writes overwrite earlier ones, read back by key). -/
def lookupLast {κ : Type} [DecidableEq κ] (k : κ) : List (κ × ℚ) → Option ℚ
  | [] => none
  | (k', v) :: rest => match lookupLast k rest with
    | some v' => some v'
    | none => if k' = k then some v else none

/-- First value bound to a key in an association list (a Python `dict` built
with "first writer wins", read back by `.get`). -/
def lookupFirst (tbl : List (String × Int)) (k : String) : Option Int :=
  match tbl with
  | [] => none
  | (k', v) :: rest => if k' = k then some v else lookupFirst rest k

/-! ### Character-level model of the text normalizers

`normalize_text` in `prepare_flow_observed.py` (lines 30–41),
`prepare_volume_observed.py` (lines 23–33) and `prepare_precip_observed.py`
(lines 24–27) is built from Python primitives `str.strip`, `str.lower`,
`unicodedata.normalize("NFKD", ·)` + dropping combining marks,
`str.replace`, `re.sub(r"[^a-z0-9 ]+", " ", ·)` and `" ".join(s.split())`.
Each primitive is embedded below on `List Char`. -/

/-- The character class of the regex `[a-z0-9 ]` (the characters *kept* by
`re.sub(r"[^a-z0-9 ]+", " ", s)`). -/
def keepChar (c : Char) : Bool :=
  (97 ≤ c.toNat && c.toNat ≤ 122) || (48 ≤ c.toNat && c.toNat ≤ 57) || (c.toNat = 32)

/-- Python whitespace as recognised by `str.strip()` / `str.split()`
(modelled for the characters occurring here: space, tab, LF, CR). -/
def isPyWs (c : Char) : Bool :=
  c.toNat = 32 || c.toNat = 9 || c.toNat = 10 || c.toNat = 13

/-- A Unicode combining mark, as recognised by `unicodedata.combining(ch)`
(modelled for the block U+0300–U+036F produced by the NFKD table below). -/
def combiningChar (c : Char) : Bool :=
  768 ≤ c.toNat && c.toNat ≤ 879

/-- Case-folding table modelling Python `str.lower` on the repertoire of this
pipeline: ASCII capitals plus precomposed accented Latin capitals. -/
def lowerPairs : List (Char × Char) :=
  [('A', 'a'), ('B', 'b'), ('C', 'c'), ('D', 'd'), ('E', 'e'), ('F', 'f'),
   ('G', 'g'), ('H', 'h'), ('I', 'i'), ('J', 'j'), ('K', 'k'), ('L', 'l'),
   ('M', 'm'), ('N', 'n'), ('O', 'o'), ('P', 'p'), ('Q', 'q'), ('R', 'r'),
   ('S', 's'), ('T', 't'), ('U', 'u'), ('V', 'v'), ('W', 'w'), ('X', 'x'),
   ('Y', 'y'), ('Z', 'z'),
   ('À', 'à'), ('Â', 'â'), ('Ä', 'ä'), ('É', 'é'), ('È', 'è'), ('Ê', 'ê'),
   ('Ë', 'ë'), ('Î', 'î'), ('Ï', 'ï'), ('Ô', 'ô'), ('Ö', 'ö'), ('Û', 'û'),
   ('Ù', 'ù'), ('Ü', 'ü'), ('Ç', 'ç')]

/-- Python `str.lower`, one character at a time (identity outside the table:
the labels this pipeline sees contain no other cased characters). -/
def lowerChar (c : Char) : Char :=
  match lowerPairs.lookup c with
  | some d => d
  | none => c

/-- NFKD decomposition table for the precomposed accented Latin letters of
the station labels: base letter followed by its combining mark. -/
def nfkdTable : List (Char × List Char) :=
  [('à', ['a', '̀']), ('â', ['a', '̂']), ('ä', ['a', '̈']),
   ('é', ['e', '́']), ('è', ['e', '̀']), ('ê', ['e', '̂']),
   ('ë', ['e', '̈']), ('î', ['i', '̂']), ('ï', ['i', '̈']),
   ('ô', ['o', '̂']), ('ö', ['o', '̈']), ('û', ['u', '̂']),
   ('ù', ['u', '̀']), ('ü', ['u', '̈']), ('ç', ['c', '̧'])]

/-- `unicodedata.normalize("NFKD", ·)`, one character at a time (identity
outside the table). -/
def nfkdChar (c : Char) : List Char :=
  match nfkdTable.lookup c with
  | some cs => cs
  | none => [c]

/-- `unicodedata.normalize("NFKD", s)` on a whole string. -/
def nfkdList (l : List Char) : List Char :=
  (l.map nfkdChar).flatten

/-- `"".join(ch for ch in s if not unicodedata.combining(ch))`. -/
def dropCombining (l : List Char) : List Char :=
  l.filter (fun c => !combiningChar c)

/-- Python `str.strip()`: drop whitespace from both ends. -/
def stripPy (l : List Char) : List Char :=
  ((l.dropWhile isPyWs).reverse.dropWhile isPyWs).reverse

/-- Python `str.lower()` on a whole string. -/
def pyLower (l : List Char) : List Char :=
  l.map lowerChar

/-- Does `patt` occur at the very start of `s`? -/
def matchesAt : List Char → List Char → Bool
  | [], _ => true
  | _ :: _, [] => false
  | p :: ps, c :: cs => p = c && matchesAt ps cs

/-- Worker for `replaceList`: scan left to right, replacing each
(non-overlapping) occurrence of `patt` by `repl`.  The scan consumes at least
one character per step, so a fuel of `s.length` always suffices; the fuel
makes the recursion structural (and hence kernel-evaluable). -/
def replaceFuel (patt repl : List Char) : Nat → List Char → List Char
  | _, [] => []
  | 0, s => s
  | fuel + 1, c :: cs =>
    if matchesAt patt (c :: cs) then
      repl ++ replaceFuel patt repl fuel (cs.drop (patt.length - 1))
    else
      c :: replaceFuel patt repl fuel cs

/-- Python `str.replace(patt, repl)` (all occurrences, left to right). -/
def replaceList (patt repl s : List Char) : List Char :=
  if patt = [] then s else replaceFuel patt repl s.length s

/-- Worker for `regexCleanList`, fuelled like `replaceFuel`. -/
def regexCleanFuel : Nat → List Char → List Char
  | _, [] => []
  | 0, s => s
  | fuel + 1, c :: cs =>
    if keepChar c then c :: regexCleanFuel fuel cs
    else ' ' :: regexCleanFuel fuel (cs.dropWhile (fun d => !keepChar d))

/-- `re.sub(r"[^a-z0-9 ]+", " ", s)`: each maximal run of characters outside
`[a-z0-9 ]` becomes a single space. -/
def regexCleanList (l : List Char) : List Char :=
  regexCleanFuel l.length l

/-- Worker for `splitWs`, fuelled like `replaceFuel`. -/
def splitWsFuel : Nat → List Char → List (List Char)
  | _, [] => []
  | 0, _ => []
  | fuel + 1, c :: cs =>
    if isPyWs c then splitWsFuel fuel cs
    else (c :: cs.takeWhile (fun d => !isPyWs d)) ::
      splitWsFuel fuel (cs.dropWhile (fun d => !isPyWs d))

/-- Python `str.split()`: split on runs of whitespace, discarding empties. -/
def splitWs (l : List Char) : List (List Char) :=
  splitWsFuel l.length l

/-- `" ".join(words)`. -/
def joinWords : List (List Char) → List Char
  | [] => []
  | [w] => w
  | w :: ws => w ++ ' ' :: joinWords ws

/-- `" ".join(s.split())`: collapse runs of whitespace to single spaces and
trim the ends. -/
def collapseWs (l : List Char) : List Char :=
  joinWords (splitWs l)

/-! ### Records -/

/-- One long-format cell produced by a format adapter: (time, source column
label, raw value).  `SourceRecord` of the spec. -/
structure SourceRec where
  time : Int
  label : String
  value : Option ℚ
deriving DecidableEq, Repr

/-- One cleaned record: parsed time, resolved station code, value (`none` =
`NaN`, which the cleaners keep rather than dropping). -/
structure CleanRec where
  time : Int
  station : Int
  value : Option ℚ
deriving DecidableEq, Repr

/-- The (time, station_id) deduplication key of a record. -/
def CleanRec.key (r : CleanRec) : Int × Int := (r.time, r.station)

/-- `df.loc[~df.duplicated(subset=["time","station_id"], keep="last")]`
(`prepare_precip_model.validate_and_clean_input`, lines 125–131, and
`prepare_precip_observed.clean_values`, lines 244–248): drop every row that
has a *later* row with the same (time, station) key. -/
def dropDupKeepLast : List CleanRec → List CleanRec
  | [] => []
  | r :: rest =>
    if rest.any (fun x => x.key = r.key) then dropDupKeepLast rest
    else r :: dropDupKeepLast rest

/-- `duplicated(...).sum()`: the number of rows marked as duplicates, as
counted into the report (`duplicate_rows_removed`). -/
def dupMaskCount : List CleanRec → Nat
  | [] => 0
  | r :: rest => (if rest.any (fun x => x.key = r.key) then 1 else 0) + dupMaskCount rest

/-! ### The three text normalizers -/

namespace FlowObserved

/-- `prepare_flow_observed.normalize_text` (lines 30–41): strip, lower, NFKD
+ drop combining marks, replace `"débit"→"debit"`, `"(m3/s)"→""`, `"_"→" "`,
`re.sub(r"[^a-z0-9 ]+", " ", ·)`, collapse whitespace. -/
def normalize_text (v : String) : String :=
  let s := stripPy v.data
  let s := pyLower s
  let s := dropCombining (nfkdList s)
  let s := replaceList "débit".data "debit".data s
  let s := replaceList "(m3/s)".data "".data s
  let s := replaceList "_".data " ".data s
  let s := regexCleanList s
  String.mk (collapseWs s)

end FlowObserved

namespace VolumeObserved

/-- `prepare_volume_observed.normalize_text` (lines 23–33): strip, lower,
NFKD + drop combining marks, replace `"_"→" "`, remove `"(mm3)"`, `"(mm 3)"`,
`"(hm3)"`, `"(hm 3)"`, regex clean, collapse whitespace. -/
def normalize_text (v : String) : String :=
  let s := stripPy v.data
  let s := pyLower s
  let s := dropCombining (nfkdList s)
  let s := replaceList "_".data " ".data s
  let s := replaceList "(mm3)".data "".data s
  let s := replaceList "(mm 3)".data "".data s
  let s := replaceList "(hm3)".data "".data s
  let s := replaceList "(hm 3)".data "".data s
  let s := regexCleanList s
  String.mk (collapseWs s)

end VolumeObserved

namespace PrecipObserved

/-- `prepare_precip_observed.normalize_text` (lines 24–27):
`" ".join(str(value).strip().lower().replace("_", " ").split())` — it keeps
diacritics and unit suffixes. -/
def normalize_text (v : String) : String :=
  String.mk (collapseWs (replaceList "_".data " ".data (pyLower (stripPy v.data))))

end PrecipObserved

/-! ### Station resolver (exact, then fuzzy) -/

/-- The method by which a source column label was resolved
(`ColumnMapping.method` of the spec). -/
inductive MapMethod
  | exact
  | fuzzy
  | unmapped
deriving DecidableEq, Repr

/-- Is candidate `x` preferred over current best `b` by
`heapq.nlargest(1, [(ratio, alias), ...])`: larger ratio first, ties broken
by the larger alias string. -/
def betterCand (ratio : String → String → ℚ) (word x b : String) : Bool :=
  (ratio b word < ratio x word) || ((ratio b word = ratio x word) && b < x)

/-- Fold selecting the best candidate (see `betterCand`). -/
def pickBest (ratio : String → String → ℚ) (word : String) :
    Option String → List String → Option String
  | best, [] => best
  | none, x :: xs => pickBest ratio word (some x) xs
  | some b, x :: xs =>
    pickBest ratio word (if betterCand ratio word x b then some x else some b) xs

/-- `difflib.get_close_matches(word, possibilities, n=1, cutoff)`: keep the
possibilities whose similarity ratio to `word` is at least `cutoff`, and
return the best one (by ratio, ties by string order), if any.  The similarity
metric itself (`SequenceMatcher.ratio`) is an explicit parameter `ratio`;
`ratio x word` is the ratio of alias `x` against the normalized label. -/
def getCloseMatches1 (ratio : String → String → ℚ) (cutoff : ℚ)
    (poss : List String) (word : String) : Option String :=
  pickBest ratio word none (poss.filter (fun x => cutoff ≤ ratio x word))

/-- The shared resolve-one-label logic of
`prepare_flow_observed.map_columns_to_codes` (lines 246–265) and
`prepare_volume_observed.map_stations` (lines 190–205): normalize, exact
dict lookup, else fuzzy match against all alias keys at the given cutoff,
else unmapped. -/
def resolveLabel (normalize : String → String) (aliasToCode : List (String × Int))
    (ratio : String → String → ℚ) (cutoff : ℚ) (label : String) :
    Option Int × MapMethod :=
  let norm := normalize label
  match lookupFirst aliasToCode norm with
  | some code => (some code, MapMethod.exact)
  | none =>
    match getCloseMatches1 ratio cutoff (aliasToCode.map Prod.fst) norm with
    | some b => (lookupFirst aliasToCode b, MapMethod.fuzzy)
    | none => (none, MapMethod.unmapped)

/-- Flow workflow resolver: cutoff 0.82
(`difflib.get_close_matches(norm, known_aliases, n=1, cutoff=0.82)`). -/
def FlowObserved.resolveColumn (aliasToCode : List (String × Int))
    (ratio : String → String → ℚ) (label : String) : Option Int × MapMethod :=
  resolveLabel FlowObserved.normalize_text aliasToCode ratio (mkRat 82 100) label

/-- Volume workflow resolver: cutoff 0.80
(`difflib.get_close_matches(n, aliases, n=1, cutoff=0.8)`). -/
def VolumeObserved.resolveColumn (aliasToCode : List (String × Int))
    (ratio : String → String → ℚ) (label : String) : Option Int × MapMethod :=
  resolveLabel VolumeObserved.normalize_text aliasToCode ratio (mkRat 80 100) label

/-- `out["station_id"] = out["source_col"].map(col_to_code);
out = out.dropna(subset=["station_id"])`: attach the resolved code to every
record and drop the records whose label did not resolve. -/
def mapRecords (resolve : String → Option Int × MapMethod)
    (rs : List SourceRec) : List CleanRec :=
  rs.filterMap (fun r =>
    match (resolve r.label).1 with
    | some code => some ⟨r.time, code, r.value⟩
    | none => none)

/-! ### Matrix builder and summary statistics -/

/-- A dense time × station matrix: row index, column index, and the cell
grid (row-major, aligned with `times` × `cols`). -/
structure StationMatrix where
  times : List Int
  cols : List Int
  cells : List (List (Option ℚ))
deriving DecidableEq, Repr

/-- `pivot_table(index="time", columns="station_id", values=..., aggfunc="last")`
read at one (time, code) cell: the last record carrying a non-null value for
that key (`GroupBy.last` skips `NaN`; a key with no valid value pivots to
`NaN`). -/
def pivotLast (rs : List CleanRec) (t c : Int) : Option ℚ :=
  ((rs.filter (fun r => r.time = t ∧ r.station = c)).filterMap (fun r => r.value)).getLast?

/-- The pivot row index: the sorted unique times carrying at least one valid
value. -/
def pivotTimes (rs : List CleanRec) : List Int :=
  sortedSet (rs.filterMap (fun r => if r.value.isSome then some r.time else none))

/-- `build_matrix` of the observed workflows
(`prepare_flow_observed` lines 382–403, `prepare_volume_observed` lines
280–299, `prepare_precip_observed` lines 278–298): pivot, reindex the columns
to `target_codes`, then `fillna(fill)` when a fill value is configured
(`fill = none` models `--fill-missing nan`, i.e. no substitution). -/
def buildMatrixGrid (rs : List CleanRec) (targetCodes : List Int)
    (fill : Option ℚ) : StationMatrix :=
  { times := pivotTimes rs
    cols := targetCodes
    cells := (pivotTimes rs).map (fun t => targetCodes.map (fun c =>
      match pivotLast rs t c with
      | some v => some v
      | none => fill)) }

/-- `pre_fill_missing = int(matrix.isna().sum().sum())`, counted before the
fill is applied. -/
def preFillMissingCount (rs : List CleanRec) (targetCodes : List Int) : Nat :=
  (((pivotTimes rs).map (fun t =>
    (targetCodes.filter (fun c => pivotLast rs t c = none)).length)).sum)

/-- The non-null cells of the (already fill-substituted) matrix:
`valid = pd.Series(matrix.to_numpy().ravel()).dropna()`. -/
def matrixValidValues (m : StationMatrix) : List ℚ :=
  (m.cells.flatten).filterMap id

/-- The summary statistics recorded into the report (`flow_min`, `flow_max`,
`flow_mean`, … — the two percentiles of the source are computed from the same
`valid` series and are not modelled further). -/
structure MatrixStats where
  vmin : Option ℚ
  vmax : Option ℚ
  vmean : Option ℚ
deriving DecidableEq, Repr

/-- Mean of a list of rationals (`Series.mean`), `none` on empty. -/
def listMean (l : List ℚ) : Option ℚ :=
  if l.isEmpty then none else some (l.sum / l.length)

/-- `float(valid.min()) / float(valid.max()) / float(valid.mean())` over the
non-null cells of the matrix, as computed *after* the fill decision in
`build_matrix`. -/
def matrixStats (m : StationMatrix) : MatrixStats :=
  { vmin := (matrixValidValues m).min?
    vmax := (matrixValidValues m).max?
    vmean := listMean (matrixValidValues m) }

/-- The non-null pivot values themselves (the cells valid *before* any fill
substitution) — what the spec says the statistics are computed over. -/
def pivotValidValues (rs : List CleanRec) (targetCodes : List Int) : List ℚ :=
  ((pivotTimes rs).map (fun t => targetCodes.filterMap (fun c => pivotLast rs t c))).flatten

/-! ### Target station codes of the four workflows -/

/-- `prepare_flow_observed.main` line 543:
`target_codes = sorted(set(station_codes_sheet) | set(existing_data_codes))`. -/
def FlowObserved.targetCodes (stationCodesSheet existingDataCodes : List Int) : List Int :=
  sortedSet (stationCodesSheet ++ existingDataCodes)

/-- `prepare_volume_observed.main` line 428:
`target_codes = sorted(set(station_codes_sheet) | set(data_codes_before))`. -/
def VolumeObserved.targetCodes (stationCodesSheet dataCodesBefore : List Int) : List Int :=
  sortedSet (stationCodesSheet ++ dataCodesBefore)

/-- `prepare_precip_observed.main` line 436:
`target_codes = sorted(set(stations_sheet_codes) | set(data_sheet_codes))`. -/
def PrecipObserved.targetCodes (stationsSheetCodes dataSheetCodes : List Int) : List Int :=
  sortedSet (stationsSheetCodes ++ dataSheetCodes)

namespace PrecipModel

/-- `prepare_precip_model.build_station_order` (lines 174–184): keep the
station codes already present in the template data-sheet header *in header
order*, then append the sorted codes of (stations sheet ∪ input) that are
missing from it. -/
def build_station_order (existingOrder stationsSheetCodes inputCodes : List Int) :
    List Int × List Int :=
  let toAdd := sortedSet
    (((stationsSheetCodes ++ inputCodes).dedup).filter (fun c => ¬ c ∈ existingOrder))
  (existingOrder ++ toAdd, toAdd)

/-- `prepare_precip_model.dataframe_to_matrix` (lines 207–234): pivot with
`aggfunc="last"`, reindex the columns to `target_station_order`, then
*always* `fillna(fill_missing)` (the fill value is an argparse `float`,
default `0.0`). -/
def dataframe_to_matrix (rs : List CleanRec) (targetStationOrder : List Int)
    (fill : ℚ) : StationMatrix :=
  { times := pivotTimes rs
    cols := targetStationOrder
    cells := (pivotTimes rs).map (fun t => targetStationOrder.map (fun c =>
      match pivotLast rs t c with
      | some v => some v
      | none => some fill)) }

/-- The summary statistics of `dataframe_to_matrix`:
`rr_series = pd.Series(matrix.to_numpy().ravel())` — computed over *all*
cells of the already-filled matrix. -/
def matrix_stats (rs : List CleanRec) (targetStationOrder : List Int)
    (fill : ℚ) : MatrixStats :=
  matrixStats (dataframe_to_matrix rs targetStationOrder fill)

end PrecipModel

/-! ### Resampling aggregations -/

/-- `statistics`-style median of a list (`Series.median`): middle element of
the sorted list, or the mean of the two middle elements. -/
def listMedian (l : List ℚ) : Option ℚ :=
  let s := l.insertionSort (· ≤ ·)
  if l.isEmpty then none
  else if l.length % 2 = 1 then s.get? (l.length / 2)
  else match s.get? (l.length / 2 - 1), s.get? (l.length / 2) with
    | some a, some b => some ((a + b) / 2)
    | _, _ => none

namespace FlowObserved

/-- The `--agg` argparse choices of `prepare_flow_observed.parse_args`
(lines 62–67). -/
def aggChoices : List String :=
  ["mean", "last", "sum", "max", "min", "median"]

/-- The per-(station, bucket) reduction dispatched by
`prepare_flow_observed.clean_and_resample` (lines 323–338), applied to the
valid (non-`NaN`) values of one resample bucket.  `sum` is
`sum(min_count=1)`: `NaN` on an empty bucket.  An unsupported name raises
(`none` here). -/
def applyAgg (agg : String) (vals : List ℚ) : Option ℚ :=
  if agg = "mean" then listMean vals
  else if agg = "last" then vals.getLast?
  else if agg = "sum" then (if vals.isEmpty then none else some vals.sum)
  else if agg = "max" then vals.max?
  else if agg = "min" then vals.min?
  else if agg = "median" then listMedian vals
  else none

end FlowObserved

namespace VolumeObserved

/-- The `--agg` argparse choices of `prepare_volume_observed.parse_args`
(line 69): **no `"sum"`**. -/
def aggChoices : List String :=
  ["mean", "last", "min", "max", "median"]

/-- The reduction dispatched by `prepare_volume_observed.clean_and_resample`
(lines 251–261); note the final `else` branch computes the median for any
unrecognised name. -/
def applyAgg (agg : String) (vals : List ℚ) : Option ℚ :=
  if agg = "mean" then listMean vals
  else if agg = "last" then vals.getLast?
  else if agg = "min" then vals.min?
  else if agg = "max" then vals.max?
  else listMedian vals

end VolumeObserved

/-! ### Format adapters (structural guards) -/

namespace FlowObserved

/-- `prepare_flow_observed.parse_html_xls` (lines 145–163), starting from the
extracted `<tr>`/`<td>` cell texts: keep the non-empty rows (`if cleaned:`),
raise when fewer than 2 rows were parsed, take the first row as header and
keep only the data rows whose width equals the header width (ragged rows are
dropped silently).  There is no column-count check. -/
def parse_html_xls (trs : List (List String)) :
    Except String (List String × List (List String)) :=
  match trs.filter (fun r => !r.isEmpty) with
  | [] => Except.error "Could not parse HTML table from .xls input."
  | [_] => Except.error "Could not parse HTML table from .xls input."
  | header :: data =>
    Except.ok (header, data.filter (fun r => r.length = header.length))

/-- One melted CSV row cell: `(time, source_col, value)` as raw strings. -/
structure RawRec where
  time : String
  source_col : String
  value : String
deriving DecidableEq, Repr

/-- `raw.melt(id_vars=[time_col], value_vars=station_cols, ...)` for one body
row: first column is the time, every remaining column yields one record. -/
def meltRow (header : List String) (row : List String) : List RawRec :=
  ((List.range header.length).drop 1).map (fun i =>
    ⟨row.getD 0 "", header.getD i "", row.getD i ""⟩)

/-- `prepare_flow_observed.parse_csv` (lines 205–215): raise when the parsed
table has fewer than 2 columns, else melt into long format. -/
def parse_csv (header : List String) (body : List (List String)) :
    Except String (List RawRec) :=
  if header.length < 2 then
    Except.error "CSV needs one time column + station columns."
  else
    Except.ok ((body.map (meltRow header)).flatten)

end FlowObserved

/-! ### End-of-run behaviour (strict mode) -/

/-- The files a workflow run writes after processing succeeded. -/
inductive Artifact
  | workbook
  | reportJson
  | reportTxt
deriving DecidableEq, Repr

/-- Tail of `prepare_flow_observed.main` (lines 555–603): write the workbook,
write both reports, then `if args.strict and warnings: return 1; return 0`. -/
def FlowObserved.mainTail (strict : Bool) (warnings : List String) :
    List Artifact × Int :=
  ([Artifact.workbook, Artifact.reportJson, Artifact.reportTxt],
   if strict ∧ warnings ≠ [] then 1 else 0)

/-- Tail of `prepare_volume_observed.main` (lines 441–481): same shape as the
flow workflow. -/
def VolumeObserved.mainTail (strict : Bool) (warnings : List String) :
    List Artifact × Int :=
  ([Artifact.workbook, Artifact.reportJson, Artifact.reportTxt],
   if strict ∧ warnings ≠ [] then 1 else 0)

/-- Tail of `prepare_precip_observed.main` (lines 448–496): same shape as the
flow workflow. -/
def PrecipObserved.mainTail (strict : Bool) (warnings : List String) :
    List Artifact × Int :=
  ([Artifact.workbook, Artifact.reportJson, Artifact.reportTxt],
   if strict ∧ warnings ≠ [] then 1 else 0)

/-- Tail of `prepare_precip_model.main` (lines 414–473): write the workbook,
then check strict mode (lines 425–429) *before* writing the reports — a
strict failure returns 1 with only the workbook written. -/
def PrecipModel.mainTail (strict : Bool) (warnings : List String) :
    List Artifact × Int :=
  if strict ∧ warnings ≠ [] then ([Artifact.workbook], 1)
  else ([Artifact.workbook, Artifact.reportJson, Artifact.reportTxt], 0)

/-! ### Consolidator (`hydro_sentinel_ui._consolidate_outputs`, lines 731–805) -/

namespace Consolidator

/-- The `Données` sheet of one already-produced output workbook, as the
consolidator reads it: the row-3 header cells from column 2 on (numeric
station codes or not), and the data rows from row 4 on — a possibly-missing
or unparseable timestamp (`none` models both an empty first cell and a
`pd.to_datetime` failure) and the value cells from column 2 on, aligned with
`header`. -/
structure OutSheet where
  header : List (Option Int)
  rows : List (Option Int × List (Option ℚ))
deriving DecidableEq, Repr

/-- `code_to_col`: for each numeric header cell `code_to_col[int(v)] = c` —
a later column with the same code overwrites an earlier one.  Returns the
0-based index into the row's cell list. -/
def codeToCol (header : List (Option Int)) (code : Int) : Option Nat :=
  ((header.enum).filterMap (fun p =>
    if p.2 = some code then some p.1 else none)).getLast?

/-- The (timestamp, code) ↦ value pairs one data row contributes, in the
order the inner `for code in ordered_codes:` loop writes them: skip codes
absent from the file's own header, skip null cells. -/
def rowContrib (header : List (Option Int)) (orderedCodes : List Int)
    (t : Int) (cells : List (Option ℚ)) : List ((Int × Int) × ℚ) :=
  orderedCodes.filterMap (fun code =>
    match codeToCol header code with
    | none => none
    | some i =>
      match cells.getD i none with
      | none => none
      | some v => some ((t, code), v))

/-- All pairs one output file contributes, in row order; rows with a missing
or unparseable timestamp are skipped entirely. -/
def fileContrib (orderedCodes : List Int) (f : OutSheet) : List ((Int × Int) × ℚ) :=
  (f.rows.map (fun row =>
    match row.1 with
    | none => []
    | some t => rowContrib f.header orderedCodes t row.2)).flatten

/-- Every timestamp a file adds to `all_ts` (any row with a parseable
timestamp, whether or not it carries values). -/
def fileTimes (f : OutSheet) : List Int :=
  f.rows.filterMap (fun row => row.1)

/-- The `values_by_ts_code` insertion sequence over all files, in processing
order.  A workbook without a `Données` sheet (`none`) is skipped
(`continue`). -/
def allContribs (orderedCodes : List Int) (files : List (Option OutSheet)) :
    List ((Int × Int) × ℚ) :=
  (files.map (fun f =>
    match f with
    | none => []
    | some f => fileContrib orderedCodes f)).flatten

/-- All timestamps seen across the files (files without a `Données` sheet
contribute none). -/
def allTimes (files : List (Option OutSheet)) : List Int :=
  (files.map (fun f =>
    match f with
    | none => []
    | some f => fileTimes f)).flatten

/-- The final value of `values_by_ts_code[(t, c)]`: the last write wins. -/
def consolidatedValue (tplHeader : List (Option Int))
    (files : List (Option OutSheet)) (t c : Int) : Option ℚ :=
  lookupLast (t, c) (allContribs (tplHeader.filterMap id) files)

/-- The consolidated workbook contents. -/
structure Consolidated where
  header : List Int
  timestamps : List Int
  cellRows : List (List (Option ℚ))
  warnings : List String
deriving DecidableEq, Repr

/-- `_consolidate_outputs`: read the template's declared column order
(`ordered_codes` = the numeric row-3 header cells, in column order), fold
every file's contributions into `values_by_ts_code`, and write one row per
sorted timestamp with one cell per ordered code.  The function records no
warning for skipped workbooks or discarded codes. -/
def consolidate (tplHeader : List (Option Int))
    (files : List (Option OutSheet)) : Consolidated :=
  let orderedCodes := tplHeader.filterMap id
  let ts := sortedSet (allTimes files)
  { header := orderedCodes
    timestamps := ts
    cellRows := ts.map (fun t => orderedCodes.map (fun c =>
      consolidatedValue tplHeader files t c))
    warnings := [] }

end Consolidator

/-! ## Part 2 — Theorems -/

/-! ### Shared helper lemmas -/

theorem length_dropWhile_le {α : Type} (p : α → Bool) (l : List α) :
    (l.dropWhile p).length ≤ l.length :=
  List.Sublist.length_le (List.dropWhile_sublist p)

theorem sortedSet_sorted (xs : List Int) : List.Sorted (· ≤ ·) (sortedSet xs) :=
  List.sorted_insertionSort _ _

theorem sortedSet_nodup (xs : List Int) : List.Nodup (sortedSet xs) :=
  ((List.perm_insertionSort _ _).nodup_iff).2 (List.nodup_dedup xs)

theorem mem_sortedSet {x : Int} {xs : List Int} : x ∈ sortedSet xs ↔ x ∈ xs := by
  unfold sortedSet
  rw [(List.perm_insertionSort _ _).mem_iff, List.mem_dedup]

theorem lookupLast_append_right {κ : Type} [DecidableEq κ] (k : κ)
    (l₁ l₂ : List (κ × ℚ)) (h : (lookupLast k l₂).isSome) :
    lookupLast k (l₁ ++ l₂) = lookupLast k l₂ := by
  induction l₁ with
  | nil => rfl
  | cons p l₁ ih =>
    obtain ⟨v, hv⟩ := Option.isSome_iff_exists.1 h
    simp only [List.cons_append, lookupLast, List.append_eq, ih, hv]

theorem lookupLast_append_left {κ : Type} [DecidableEq κ] (k : κ)
    (l₁ l₂ : List (κ × ℚ)) (h : lookupLast k l₂ = none) :
    lookupLast k (l₁ ++ l₂) = lookupLast k l₁ := by
  induction l₁ with
  | nil => simpa using h
  | cons p l₁ ih =>
    simp only [List.cons_append, lookupLast, List.append_eq, ih]

theorem lookupLast_eq_some_mem {κ : Type} [DecidableEq κ] {k : κ} {v : ℚ}
    {l : List (κ × ℚ)} (h : lookupLast k l = some v) : (k, v) ∈ l := by
  induction l with
  | nil => simp [lookupLast] at h
  | cons p rest ih =>
    rw [lookupLast] at h
    cases hr : lookupLast k rest with
    | some v' =>
      rw [hr] at h
      exact List.mem_cons_of_mem _ (ih (hr.trans (by injection h with h; rw [h])))
    | none =>
      rw [hr] at h
      by_cases hk : p.1 = k
      · obtain ⟨p₁, p₂⟩ := p
        simp only [if_pos hk] at h
        injection h with h
        simp only [List.mem_cons]
        left
        simp only at hk
        rw [hk, h]
      · simp [if_neg hk] at h

/-! ### Deduplication on (time, station) — claim C7 groundwork -/

theorem dropDupKeepLast_filter_key (k : Int × Int) :
    ∀ rs : List CleanRec,
      (dropDupKeepLast rs).filter (fun r => r.key = k) =
        ((rs.filter (fun r => r.key = k)).getLast?).toList := by
  intro rs
  induction rs with
  | nil => rfl
  | cons r rest ih =>
    by_cases hk : r.key = k
    · by_cases hdup : rest.any (fun x => x.key = r.key)
      · -- r is dropped; a later row with the same key exists, so the
        -- filtered tail is nonempty and its last element is unchanged.
        rw [dropDupKeepLast, if_pos hdup, ih]
        have hne : rest.filter (fun r => r.key = k) ≠ [] := by
          rw [List.any_eq_true] at hdup
          obtain ⟨x, hx, hxk⟩ := hdup
          have : x ∈ rest.filter (fun r => r.key = k) := by
            rw [List.mem_filter]
            refine ⟨hx, ?_⟩
            simp only [decide_eq_true_eq] at hxk ⊢
            rw [hxk, hk]
          exact List.ne_nil_of_mem this
        obtain ⟨y, ys, hys⟩ := List.exists_cons_of_ne_nil hne
        rw [List.filter_cons_of_pos (by simpa using hk), hys,
          List.getLast?_cons_cons]
      · -- r is kept; no later row has its key, so the filtered tail is empty.
        rw [dropDupKeepLast, if_neg hdup]
        have hempty : rest.filter (fun r => r.key = k) = [] := by
          rw [List.filter_eq_nil_iff]
          intro x hx
          simp only [decide_eq_true_eq]
          intro hxk
          apply hdup
          rw [List.any_eq_true]
          exact ⟨x, hx, by simp [hxk, hk]⟩
        rw [List.filter_cons_of_pos (by simpa using hk),
          List.filter_cons_of_pos (by simpa using hk), ih, hempty]
        rfl
    · by_cases hdup : rest.any (fun x => x.key = r.key)
      · rw [dropDupKeepLast, if_pos hdup, ih,
          List.filter_cons_of_neg (by simpa using hk)]
      · rw [dropDupKeepLast, if_neg hdup,
          List.filter_cons_of_neg (by simpa using hk),
          List.filter_cons_of_neg (by simpa using hk), ih]

theorem dropDupKeepLast_length_add_count :
    ∀ rs : List CleanRec, (dropDupKeepLast rs).length + dupMaskCount rs = rs.length := by
  intro rs
  induction rs with
  | nil => rfl
  | cons r rest ih =>
    by_cases hdup : rest.any (fun x => x.key = r.key)
    · rw [dropDupKeepLast, if_pos hdup, dupMaskCount, if_pos hdup]
      simp only [List.length_cons]
      omega
    · rw [dropDupKeepLast, if_neg hdup, dupMaskCount, if_neg hdup]
      simp only [List.length_cons]
      omega

/-! ### Character-class lemmas for the normalizers -/

theorem lookup_some_mem {α β : Type} [BEq α] [LawfulBEq α] {a : α} {b : β} :
    ∀ {l : List (α × β)}, l.lookup a = some b → (a, b) ∈ l := by
  intro l h
  induction l with
  | nil => simp [List.lookup] at h
  | cons p rest ih =>
    obtain ⟨k, v⟩ := p
    rw [List.lookup] at h
    cases hk : a == k with
    | true =>
      simp only [hk] at h
      injection h with h
      rw [List.mem_cons]
      left
      rw [eq_of_beq hk, h]
    | false =>
      simp only [hk] at h
      exact List.mem_cons_of_mem _ (ih h)

theorem lowerChar_eq_self_of_keep {c : Char} (h : keepChar c = true) :
    lowerChar c = c := by
  rw [lowerChar]
  cases hl : lowerPairs.lookup c with
  | none => rfl
  | some d =>
    exfalso
    have hmem := lookup_some_mem hl
    have hall : lowerPairs.all (fun p => !keepChar p.1) = true := by decide
    have hc := List.all_eq_true.1 hall _ hmem
    simp only [Bool.not_eq_true'] at hc
    rw [hc] at h
    exact Bool.false_ne_true h

theorem lowerChar_idem (c : Char) : lowerChar (lowerChar c) = lowerChar c := by
  cases hl : lowerPairs.lookup c with
  | none => simp [lowerChar, hl]
  | some d =>
    have hmem := lookup_some_mem hl
    have hall : lowerPairs.all (fun p => lowerPairs.lookup p.2 = none) = true := by decide
    have hd := List.all_eq_true.1 hall _ hmem
    simp only [decide_eq_true_eq] at hd
    simp [lowerChar, hl, hd]

theorem nfkdChar_eq_self_of_keep {c : Char} (h : keepChar c = true) :
    nfkdChar c = [c] := by
  rw [nfkdChar]
  cases hl : nfkdTable.lookup c with
  | none => rfl
  | some cs =>
    exfalso
    have hmem := lookup_some_mem hl
    have hall : nfkdTable.all (fun p => !keepChar p.1) = true := by decide
    have hc := List.all_eq_true.1 hall _ hmem
    simp only [Bool.not_eq_true'] at hc
    rw [hc] at h
    exact Bool.false_ne_true h

theorem not_combining_of_keep {c : Char} (h : keepChar c = true) :
    combiningChar c = false := by
  cases hcb : combiningChar c with
  | false => rfl
  | true =>
    exfalso
    simp only [combiningChar, Bool.and_eq_true, decide_eq_true_eq] at hcb
    simp only [keepChar, Bool.or_eq_true, Bool.and_eq_true, decide_eq_true_eq] at h
    omega

theorem not_pyWs_of_keep_no_space {c : Char} (h : keepChar c = true)
    (hs : c ≠ ' ') : isPyWs c = false := by
  cases hw : isPyWs c with
  | false => rfl
  | true =>
    exfalso
    simp only [isPyWs, Bool.or_eq_true, decide_eq_true_eq] at hw
    simp only [keepChar, Bool.or_eq_true, Bool.and_eq_true, decide_eq_true_eq] at h
    have h32 : c.toNat = 32 := by omega
    apply hs
    have h2 : c.val.toNat = (' ' : Char).val.toNat := h32
    exact Char.eq_of_val_eq (UInt32.toNat.inj h2)

/-! ### Stage-identity lemmas for the normalizers -/

theorem map_eq_self_of_id {α : Type} {f : α → α} :
    ∀ {l : List α}, (∀ c ∈ l, f c = c) → l.map f = l := by
  intro l h
  induction l with
  | nil => rfl
  | cons c cs ih =>
    rw [List.map_cons, h c (List.mem_cons_self c cs),
      ih (fun x hx => h x (List.mem_cons_of_mem c hx))]

theorem nfkdList_eq_self {l : List Char} (h : ∀ c ∈ l, nfkdChar c = [c]) :
    nfkdList l = l := by
  induction l with
  | nil => rfl
  | cons c cs ih =>
    rw [nfkdList, List.map_cons, List.flatten_cons, h c (List.mem_cons_self c cs)]
    rw [nfkdList] at ih
    rw [ih (fun x hx => h x (List.mem_cons_of_mem c hx))]
    rfl

theorem dropCombining_eq_self {l : List Char} (h : ∀ c ∈ l, combiningChar c = false) :
    dropCombining l = l := by
  rw [dropCombining, List.filter_eq_self]
  intro a ha
  rw [h a ha]
  rfl

theorem matchesAt_mem {patt s : List Char} (h : matchesAt patt s = true) :
    ∀ p ∈ patt, p ∈ s := by
  induction patt generalizing s with
  | nil => intro p hp; simp at hp
  | cons q qs ih =>
    cases s with
    | nil => simp [matchesAt] at h
    | cons c cs =>
      rw [matchesAt, Bool.and_eq_true, decide_eq_true_eq] at h
      intro p hp
      rcases List.mem_cons.1 hp with hpq | hpqs
      · rw [hpq, h.1]; exact List.mem_cons_self c cs
      · exact List.mem_cons_of_mem c (ih h.2 p hpqs)

theorem replaceFuel_eq_self {patt repl : List Char} {c₀ : Char} (hp : c₀ ∈ patt) :
    ∀ (fuel : Nat) {s : List Char}, c₀ ∉ s → replaceFuel patt repl fuel s = s := by
  intro fuel
  induction fuel with
  | zero => intro s _; cases s <;> rfl
  | succ fuel ih =>
    intro s hs
    cases s with
    | nil => rfl
    | cons c cs =>
      rw [replaceFuel]
      have hmatch : matchesAt patt (c :: cs) = false := by
        cases hm : matchesAt patt (c :: cs) with
        | false => rfl
        | true => exact absurd (matchesAt_mem hm c₀ hp) hs
      rw [hmatch]
      simp only [Bool.false_eq_true, if_false]
      rw [ih (fun hmem => hs (List.mem_cons_of_mem c hmem))]

theorem replaceList_eq_self {patt repl : List Char} {c₀ : Char} (hp : c₀ ∈ patt)
    {s : List Char} (hs : c₀ ∉ s) : replaceList patt repl s = s := by
  rw [replaceList, if_neg (List.ne_nil_of_mem hp), replaceFuel_eq_self hp _ hs]

theorem mem_replaceFuel {patt repl : List Char} :
    ∀ (fuel : Nat) {s : List Char} {c : Char},
      c ∈ replaceFuel patt repl fuel s → c ∈ s ∨ c ∈ repl := by
  intro fuel
  induction fuel with
  | zero =>
    intro s c h
    cases s with
    | nil => simp [replaceFuel] at h
    | cons a cs => exact Or.inl (by simpa [replaceFuel] using h)
  | succ fuel ih =>
    intro s c h
    cases s with
    | nil => simp [replaceFuel] at h
    | cons a cs =>
      rw [replaceFuel] at h
      by_cases hm : matchesAt patt (a :: cs) = true
      · rw [if_pos hm] at h
        rcases List.mem_append.1 h with hr | hrec
        · exact Or.inr hr
        · rcases ih hrec with hmem | hr
          · exact Or.inl (List.mem_cons_of_mem a (List.drop_subset _ cs hmem))
          · exact Or.inr hr
      · rw [if_neg hm] at h
        rcases List.mem_cons.1 h with hc | hrec
        · exact Or.inl (by rw [hc]; exact List.mem_cons_self a cs)
        · rcases ih hrec with hmem | hr
          · exact Or.inl (List.mem_cons_of_mem a hmem)
          · exact Or.inr hr

theorem not_mem_replaceFuel_single {c₀ r : Char} (hr : r ≠ c₀) :
    ∀ (fuel : Nat) (s : List Char), s.length ≤ fuel →
      c₀ ∉ replaceFuel [c₀] [r] fuel s := by
  intro fuel
  induction fuel with
  | zero =>
    intro s hs
    have : s = [] := List.length_eq_zero.1 (Nat.le_zero.1 hs)
    rw [this]
    simp [replaceFuel]
  | succ fuel ih =>
    intro s hs
    cases s with
    | nil => simp [replaceFuel]
    | cons a cs =>
      rw [replaceFuel]
      by_cases hm : matchesAt [c₀] (a :: cs) = true
      · rw [if_pos hm]
        intro hmem
        rcases List.mem_append.1 hmem with hx | hx
        · rcases List.mem_singleton.1 hx with rfl
          exact hr rfl
        · have hlen : (cs.drop 0).length ≤ fuel := by
            simp only [List.drop_zero]
            simp only [List.length_cons] at hs
            omega
          exact ih (cs.drop 0) hlen (by simpa using hx)
      · rw [if_neg hm]
        intro hmem
        rcases List.mem_cons.1 hmem with rfl | hx
        · apply hm
          simp [matchesAt]
        · have hlen : cs.length ≤ fuel := by
            simp only [List.length_cons] at hs
            omega
          exact ih cs hlen hx

theorem regexCleanFuel_eq_self :
    ∀ (fuel : Nat) {l : List Char}, (∀ c ∈ l, keepChar c = true) →
      regexCleanFuel fuel l = l := by
  intro fuel
  induction fuel with
  | zero => intro l _; cases l <;> rfl
  | succ fuel ih =>
    intro l h
    cases l with
    | nil => rfl
    | cons c cs =>
      rw [regexCleanFuel, if_pos (h c (List.mem_cons_self c cs)),
        ih (fun x hx => h x (List.mem_cons_of_mem c hx))]

theorem regexCleanList_eq_self {l : List Char} (h : ∀ c ∈ l, keepChar c = true) :
    regexCleanList l = l :=
  regexCleanFuel_eq_self l.length h

theorem regexCleanFuel_all_keep :
    ∀ (fuel : Nat) (l : List Char), l.length ≤ fuel →
      ∀ c ∈ regexCleanFuel fuel l, keepChar c = true := by
  intro fuel
  induction fuel with
  | zero =>
    intro l hl
    have : l = [] := List.length_eq_zero.1 (Nat.le_zero.1 hl)
    rw [this]
    intro c hc
    simp [regexCleanFuel] at hc
  | succ fuel ih =>
    intro l hl c hc
    cases l with
    | nil => simp [regexCleanFuel] at hc
    | cons a cs =>
      rw [regexCleanFuel] at hc
      simp only [List.length_cons] at hl
      by_cases ha : keepChar a = true
      · rw [if_pos ha] at hc
        rcases List.mem_cons.1 hc with rfl | hx
        · exact ha
        · exact ih cs (by omega) c hx
      · rw [if_neg ha] at hc
        rcases List.mem_cons.1 hc with rfl | hx
        · decide
        · have hlen : (cs.dropWhile (fun d => !keepChar d)).length ≤ fuel := by
            have := length_dropWhile_le (fun d => !keepChar d) cs
            omega
          exact ih _ hlen c hx

theorem regexCleanList_all_keep (l : List Char) :
    ∀ c ∈ regexCleanList l, keepChar c = true :=
  regexCleanFuel_all_keep l.length l le_rfl

/-! ### `splitWs` / `joinWords` lemmas -/

theorem splitWsFuel_congr :
    ∀ (fuel₁ fuel₂ : Nat) (l : List Char), l.length ≤ fuel₁ → l.length ≤ fuel₂ →
      splitWsFuel fuel₁ l = splitWsFuel fuel₂ l := by
  intro fuel₁
  induction fuel₁ with
  | zero =>
    intro fuel₂ l h1 _
    have : l = [] := List.length_eq_zero.1 (Nat.le_zero.1 h1)
    rw [this]
    cases fuel₂ <;> rfl
  | succ fuel₁ ih =>
    intro fuel₂ l h1 h2
    cases l with
    | nil => cases fuel₂ <;> rfl
    | cons c cs =>
      cases fuel₂ with
      | zero => simp at h2
      | succ fuel₂ =>
        simp only [List.length_cons] at h1 h2
        have hdw : (cs.dropWhile (fun d => !isPyWs d)).length ≤ cs.length :=
          length_dropWhile_le (fun d => !isPyWs d) cs
        rw [splitWsFuel, splitWsFuel]
        by_cases hws : isPyWs c = true
        · rw [if_pos hws, if_pos hws, ih fuel₂ cs (by omega) (by omega)]
        · rw [if_neg hws, if_neg hws, ih fuel₂ _ (by omega) (by omega)]

theorem splitWs_nil : splitWs [] = [] := rfl

theorem splitWs_cons (c : Char) (cs : List Char) :
    splitWs (c :: cs) =
      if isPyWs c then splitWs cs
      else (c :: cs.takeWhile (fun d => !isPyWs d)) ::
        splitWs (cs.dropWhile (fun d => !isPyWs d)) := by
  have hdw : (cs.dropWhile (fun d => !isPyWs d)).length ≤ cs.length :=
    length_dropWhile_le (fun d => !isPyWs d) cs
  rw [splitWs, List.length_cons, splitWsFuel]
  by_cases hws : isPyWs c = true
  · rw [if_pos hws, if_pos hws]
    exact splitWsFuel_congr cs.length cs.length cs le_rfl le_rfl
  · rw [if_neg hws, if_neg hws, splitWs,
      splitWsFuel_congr cs.length _ _ (by omega) le_rfl]

theorem splitWsFuel_words :
    ∀ (fuel : Nat) (l : List Char), l.length ≤ fuel →
      ∀ w ∈ splitWsFuel fuel l,
        w ≠ [] ∧ ∀ c ∈ w, c ∈ l ∧ isPyWs c = false := by
  intro fuel
  induction fuel with
  | zero =>
    intro l hl w hw
    have : l = [] := List.length_eq_zero.1 (Nat.le_zero.1 hl)
    rw [this] at hw
    simp [splitWsFuel] at hw
  | succ fuel ih =>
    intro l hl w hw
    cases l with
    | nil => simp [splitWsFuel] at hw
    | cons c cs =>
      simp only [List.length_cons] at hl
      rw [splitWsFuel] at hw
      by_cases hws : isPyWs c = true
      · rw [if_pos hws] at hw
        obtain ⟨hne, hch⟩ := ih cs (by omega) w hw
        exact ⟨hne, fun x hx => ⟨List.mem_cons_of_mem c (hch x hx).1, (hch x hx).2⟩⟩
      · rw [if_neg hws] at hw
        rcases List.mem_cons.1 hw with rfl | hw'
        · refine ⟨by simp, ?_⟩
          intro x hx
          rcases List.mem_cons.1 hx with rfl | hx'
          · exact ⟨List.mem_cons_self x cs, by simpa using hws⟩
          · have hp := List.mem_takeWhile_imp hx'
            simp only [Bool.not_eq_true'] at hp
            exact ⟨List.mem_cons_of_mem c
              ((List.takeWhile_sublist (fun d => !isPyWs d)).subset hx'), hp⟩
        · have hlen : (cs.dropWhile (fun d => !isPyWs d)).length ≤ fuel := by
            have := length_dropWhile_le (fun d => !isPyWs d) cs
            omega
          obtain ⟨hne, hch⟩ := ih _ hlen w hw'
          refine ⟨hne, fun x hx => ?_⟩
          exact ⟨List.mem_cons_of_mem c
            ((List.dropWhile_sublist (fun d => !isPyWs d)).subset (hch x hx).1),
            (hch x hx).2⟩

theorem splitWs_words (l : List Char) :
    ∀ w ∈ splitWs l, w ≠ [] ∧ ∀ c ∈ w, c ∈ l ∧ isPyWs c = false :=
  splitWsFuel_words l.length l le_rfl

theorem takeWhile_append_of_all {α : Type} {p : α → Bool} :
    ∀ {l₁ l₂ : List α}, (∀ c ∈ l₁, p c = true) →
      (l₁ ++ l₂).takeWhile p = l₁ ++ l₂.takeWhile p := by
  intro l₁ l₂ h
  induction l₁ with
  | nil => rfl
  | cons a as ih =>
    rw [List.cons_append, List.takeWhile_cons, h a (List.mem_cons_self a as)]
    rw [if_pos rfl, ih (fun x hx => h x (List.mem_cons_of_mem a hx)), List.cons_append]

theorem dropWhile_append_of_all {α : Type} {p : α → Bool} :
    ∀ {l₁ l₂ : List α}, (∀ c ∈ l₁, p c = true) →
      (l₁ ++ l₂).dropWhile p = l₂.dropWhile p := by
  intro l₁ l₂ h
  induction l₁ with
  | nil => rfl
  | cons a as ih =>
    rw [List.cons_append, List.dropWhile_cons, h a (List.mem_cons_self a as)]
    rw [if_pos rfl]
    exact ih (fun x hx => h x (List.mem_cons_of_mem a hx))

theorem takeWhile_of_all {α : Type} {p : α → Bool} {l : List α}
    (h : ∀ c ∈ l, p c = true) : l.takeWhile p = l := by
  have h2 : (l ++ ([] : List α)).takeWhile p = l ++ ([] : List α).takeWhile p :=
    takeWhile_append_of_all h
  simpa using h2

theorem dropWhile_of_all {α : Type} {p : α → Bool} {l : List α}
    (h : ∀ c ∈ l, p c = true) : l.dropWhile p = [] := by
  have h2 : (l ++ ([] : List α)).dropWhile p = ([] : List α).dropWhile p :=
    dropWhile_append_of_all h
  simpa using h2

theorem joinWords_cons_cons (w w' : List Char) (ws : List (List Char)) :
    joinWords (w :: w' :: ws) = w ++ ' ' :: joinWords (w' :: ws) := rfl

theorem joinWords_ne_nil {w : List Char} {ws : List (List Char)} (hw : w ≠ []) :
    joinWords (w :: ws) ≠ [] := by
  cases ws with
  | nil => exact hw
  | cons w' ws' =>
    rw [joinWords_cons_cons]
    intro h
    obtain ⟨c, cs, rfl⟩ := List.exists_cons_of_ne_nil hw
    simp at h

theorem joinWords_chars {Q : Char → Prop} :
    ∀ {ws : List (List Char)}, (∀ w ∈ ws, ∀ c ∈ w, Q c) → Q ' ' →
      ∀ c ∈ joinWords ws, Q c := by
  intro ws h hsp
  induction ws with
  | nil => intro c hc; simp [joinWords] at hc
  | cons w ws ih =>
    cases ws with
    | nil =>
      intro c hc
      exact h w (List.mem_cons_self w []) c hc
    | cons w' ws' =>
      rw [joinWords_cons_cons]
      intro c hc
      rcases List.mem_append.1 hc with hcw | hcr
      · exact h w (List.mem_cons_self w _) c hcw
      · rcases List.mem_cons.1 hcr with rfl | hcj
        · exact hsp
        · exact ih (fun v hv => h v (List.mem_cons_of_mem w hv)) c hcj

theorem splitWs_joinWords :
    ∀ {ws : List (List Char)},
      (∀ w ∈ ws, w ≠ [] ∧ ∀ c ∈ w, isPyWs c = false) →
      splitWs (joinWords ws) = ws := by
  intro ws h
  induction ws with
  | nil => rfl
  | cons w ws ih =>
    obtain ⟨hne, hch⟩ := h w (List.mem_cons_self w ws)
    obtain ⟨c, cs, rfl⟩ := List.exists_cons_of_ne_nil hne
    have hcw : isPyWs c = false := hch c (List.mem_cons_self c cs)
    have hcs : ∀ x ∈ cs, (fun d => !isPyWs d) x = true := by
      intro x hx
      simp only [Bool.not_eq_true']
      exact hch x (List.mem_cons_of_mem c hx)
    cases ws with
    | nil =>
      show splitWs (c :: cs) = [c :: cs]
      rw [splitWs_cons, if_neg (by simp [hcw]), takeWhile_of_all hcs,
        dropWhile_of_all hcs, splitWs_nil]
    | cons w' ws' =>
      rw [joinWords_cons_cons, List.cons_append, splitWs_cons,
        if_neg (by simp [hcw]), takeWhile_append_of_all hcs,
        dropWhile_append_of_all hcs,
        List.takeWhile_cons_of_neg (by decide), List.append_nil,
        List.dropWhile_cons_of_neg (by decide)]
      have hsp : splitWs (' ' :: joinWords (w' :: ws')) = splitWs (joinWords (w' :: ws')) := by
        rw [splitWs_cons, if_pos (by decide)]
      rw [hsp, ih (fun v hv => h v (List.mem_cons_of_mem _ hv))]

/-! ### Strip / fixed-point lemmas -/

theorem dropWhile_eq_self_of_head {α : Type} {p : α → Bool} {l : List α}
    (h : ∀ c, l.head? = some c → p c = false) : l.dropWhile p = l := by
  cases l with
  | nil => rfl
  | cons a as =>
    rw [List.dropWhile_cons_of_neg]
    rw [h a rfl]
    simp

theorem joinWords_head_cons (a : Char) (as : List Char) (ws : List (List Char)) :
    (joinWords ((a :: as) :: ws)).head? = some a := by
  cases ws with
  | nil => rfl
  | cons w' ws' => rfl

theorem joinWords_getLast_not_ws :
    ∀ {ws : List (List Char)}, (∀ w ∈ ws, w ≠ [] ∧ ∀ c ∈ w, isPyWs c = false) →
      ∀ c, (joinWords ws).getLast? = some c → isPyWs c = false := by
  intro ws
  induction ws with
  | nil => intro _ c hc; simp [joinWords] at hc
  | cons w ws' ih =>
    intro h c hc
    cases ws' with
    | nil =>
      have hcw : c ∈ w := by
        obtain ⟨hw, hx⟩ := List.mem_getLast?_eq_getLast (show c ∈ w.getLast? from hc)
        rw [hx]
        exact List.getLast_mem hw
      exact (h w (List.mem_cons_self w [])).2 c hcw
    | cons w' ws'' =>
      rw [joinWords_cons_cons,
        List.getLast?_append_of_ne_nil _
          (List.cons_ne_nil ' ' (joinWords (w' :: ws'')))] at hc
      have hJ : joinWords (w' :: ws'') ≠ [] :=
        joinWords_ne_nil (h w' (List.mem_cons_of_mem w (List.mem_cons_self w' ws''))).1
      obtain ⟨j, js, hjs⟩ := List.exists_cons_of_ne_nil hJ
      rw [hjs, List.getLast?_cons_cons, ← hjs] at hc
      exact ih (fun v hv => h v (List.mem_cons_of_mem w hv)) c hc

theorem stripPy_joinWords {ws : List (List Char)}
    (h : ∀ w ∈ ws, w ≠ [] ∧ ∀ c ∈ w, isPyWs c = false) :
    stripPy (joinWords ws) = joinWords ws := by
  have hhead : ∀ c, (joinWords ws).head? = some c → isPyWs c = false := by
    cases ws with
    | nil => intro c hc; simp [joinWords] at hc
    | cons w ws' =>
      obtain ⟨c₀, cs₀, rfl⟩ := List.exists_cons_of_ne_nil (h _ (List.mem_cons_self _ ws')).1
      intro c hc
      rw [joinWords_head_cons] at hc
      injection hc with hc
      rw [← hc]
      exact (h _ (List.mem_cons_self _ ws')).2 c₀ (List.mem_cons_self c₀ cs₀)
  rw [stripPy, dropWhile_eq_self_of_head hhead, dropWhile_eq_self_of_head, List.reverse_reverse]
  intro c hc
  rw [List.head?_reverse] at hc
  exact joinWords_getLast_not_ws h c hc

theorem collapseWs_words_of_keep {l : List Char} (hl : ∀ c ∈ l, keepChar c = true) :
    ∀ w ∈ splitWs l, w ≠ [] ∧ ∀ c ∈ w, keepChar c = true ∧ isPyWs c = false := by
  intro w hw
  obtain ⟨hne, hch⟩ := splitWs_words l w hw
  exact ⟨hne, fun c hc => ⟨hl c (hch c hc).1, (hch c hc).2⟩⟩

theorem collapseWs_chars_keep {l : List Char} (hl : ∀ c ∈ l, keepChar c = true) :
    ∀ c ∈ collapseWs l, keepChar c = true := by
  rw [collapseWs]
  exact joinWords_chars
    (fun w hw c hc => ((collapseWs_words_of_keep hl w hw).2 c hc).1) (by decide)

theorem stripPy_collapseWs_of_keep {l : List Char} (hl : ∀ c ∈ l, keepChar c = true) :
    stripPy (collapseWs l) = collapseWs l := by
  rw [collapseWs]
  exact stripPy_joinWords
    (fun w hw => ⟨(collapseWs_words_of_keep hl w hw).1,
      fun c hc => ((collapseWs_words_of_keep hl w hw).2 c hc).2⟩)

theorem collapseWs_collapseWs_of_keep {l : List Char} (hl : ∀ c ∈ l, keepChar c = true) :
    collapseWs (collapseWs l) = collapseWs l := by
  conv_lhs => rw [collapseWs, collapseWs]
  rw [splitWs_joinWords
    (fun w hw => ⟨(collapseWs_words_of_keep hl w hw).1,
      fun c hc => ((collapseWs_words_of_keep hl w hw).2 c hc).2⟩)]
  rfl

theorem pyLower_eq_self_of_keep {l : List Char} (h : ∀ c ∈ l, keepChar c = true) :
    pyLower l = l :=
  map_eq_self_of_id (fun c hc => lowerChar_eq_self_of_keep (h c hc))

theorem nfkdList_eq_self_of_keep {l : List Char} (h : ∀ c ∈ l, keepChar c = true) :
    nfkdList l = l :=
  nfkdList_eq_self (fun c hc => nfkdChar_eq_self_of_keep (h c hc))

theorem dropCombining_eq_self_of_keep {l : List Char} (h : ∀ c ∈ l, keepChar c = true) :
    dropCombining l = l :=
  dropCombining_eq_self (fun c hc => not_combining_of_keep (h c hc))

theorem replaceList_eq_self_of_keep {patt repl l : List Char} {c₀ : Char}
    (hp : c₀ ∈ patt) (hc₀ : keepChar c₀ = false)
    (h : ∀ c ∈ l, keepChar c = true) : replaceList patt repl l = l := by
  apply replaceList_eq_self hp
  intro hmem
  rw [h c₀ hmem] at hc₀
  simp at hc₀

/-! ### Idempotence of the three normalizers -/

theorem flowNormalize_idem (s : String) :
    FlowObserved.normalize_text (FlowObserved.normalize_text s) =
      FlowObserved.normalize_text s := by
  have key : ∀ u : List Char,
      FlowObserved.normalize_text (String.mk (collapseWs (regexCleanList u))) =
        String.mk (collapseWs (regexCleanList u)) := by
    intro u
    have hl := regexCleanList_all_keep u
    have ht := collapseWs_chars_keep hl
    show String.mk (collapseWs (regexCleanList (replaceList "_".data " ".data
      (replaceList "(m3/s)".data "".data (replaceList "débit".data "debit".data
      (dropCombining (nfkdList (pyLower (stripPy (collapseWs (regexCleanList u))))))))))) =
      String.mk (collapseWs (regexCleanList u))
    rw [stripPy_collapseWs_of_keep hl, pyLower_eq_self_of_keep ht,
      nfkdList_eq_self_of_keep ht, dropCombining_eq_self_of_keep ht,
      replaceList_eq_self_of_keep (show 'é' ∈ "débit".data by decide) (by decide) ht,
      replaceList_eq_self_of_keep (show '(' ∈ "(m3/s)".data by decide) (by decide) ht,
      replaceList_eq_self_of_keep (show '_' ∈ "_".data by decide) (by decide) ht,
      regexCleanList_eq_self ht, collapseWs_collapseWs_of_keep hl]
  exact key (replaceList "_".data " ".data (replaceList "(m3/s)".data "".data
    (replaceList "débit".data "debit".data
      (dropCombining (nfkdList (pyLower (stripPy s.data)))))))

theorem volumeNormalize_idem (s : String) :
    VolumeObserved.normalize_text (VolumeObserved.normalize_text s) =
      VolumeObserved.normalize_text s := by
  have key : ∀ u : List Char,
      VolumeObserved.normalize_text (String.mk (collapseWs (regexCleanList u))) =
        String.mk (collapseWs (regexCleanList u)) := by
    intro u
    have hl := regexCleanList_all_keep u
    have ht := collapseWs_chars_keep hl
    show String.mk (collapseWs (regexCleanList (replaceList "(hm 3)".data "".data
      (replaceList "(hm3)".data "".data (replaceList "(mm 3)".data "".data
      (replaceList "(mm3)".data "".data (replaceList "_".data " ".data
      (dropCombining (nfkdList (pyLower (stripPy (collapseWs (regexCleanList u))))))))))))) =
      String.mk (collapseWs (regexCleanList u))
    rw [stripPy_collapseWs_of_keep hl, pyLower_eq_self_of_keep ht,
      nfkdList_eq_self_of_keep ht, dropCombining_eq_self_of_keep ht,
      replaceList_eq_self_of_keep (show '_' ∈ "_".data by decide) (by decide) ht,
      replaceList_eq_self_of_keep (show '(' ∈ "(mm3)".data by decide) (by decide) ht,
      replaceList_eq_self_of_keep (show '(' ∈ "(mm 3)".data by decide) (by decide) ht,
      replaceList_eq_self_of_keep (show '(' ∈ "(hm3)".data by decide) (by decide) ht,
      replaceList_eq_self_of_keep (show '(' ∈ "(hm 3)".data by decide) (by decide) ht,
      regexCleanList_eq_self ht, collapseWs_collapseWs_of_keep hl]
  exact key (replaceList "(hm 3)".data "".data (replaceList "(hm3)".data "".data
    (replaceList "(mm 3)".data "".data (replaceList "(mm3)".data "".data
    (replaceList "_".data " ".data
      (dropCombining (nfkdList (pyLower (stripPy s.data)))))))))

theorem precipObsNormalize_idem (s : String) :
    PrecipObserved.normalize_text (PrecipObserved.normalize_text s) =
      PrecipObserved.normalize_text s := by
  have key : ∀ x : List Char, (∀ c ∈ x, lowerChar c = c) →
      PrecipObserved.normalize_text
          (String.mk (collapseWs (replaceList "_".data " ".data x))) =
        String.mk (collapseWs (replaceList "_".data " ".data x)) := by
    intro x hx
    set u := replaceList "_".data " ".data x with hu
    have hrepl : u = replaceFuel ['_'] [' '] x.length x := by
      rw [hu, replaceList, if_neg (by decide)]
    have hu1 : ∀ c ∈ u, lowerChar c = c := by
      intro c hc
      rw [hrepl] at hc
      rcases mem_replaceFuel x.length hc with hcx | hcr
      · exact hx c hcx
      · rcases List.mem_singleton.1 hcr with rfl
        decide
    have hu2 : ('_' : Char) ∉ u := by
      rw [hrepl]
      exact not_mem_replaceFuel_single (by decide) x.length x le_rfl
    have hwords : ∀ w ∈ splitWs u, w ≠ [] ∧ ∀ c ∈ w, isPyWs c = false :=
      fun w hw => ⟨(splitWs_words u w hw).1,
        fun c hc => ((splitWs_words u w hw).2 c hc).2⟩
    have ht1 : ∀ c ∈ collapseWs u, lowerChar c = c := by
      rw [collapseWs]
      exact joinWords_chars
        (fun w hw c hc => hu1 c ((splitWs_words u w hw).2 c hc).1) (by decide)
    have ht2 : ('_' : Char) ∉ collapseWs u := by
      intro hmem
      rw [collapseWs] at hmem
      exact absurd rfl (joinWords_chars (Q := fun c => c ≠ '_')
        (fun w hw c hc hue =>
          hu2 (hue ▸ ((splitWs_words u w hw).2 c hc).1)) (by decide) _ hmem)
    show String.mk (collapseWs (replaceList "_".data " ".data
      (pyLower (stripPy (collapseWs u))))) = String.mk (collapseWs u)
    have hstrip : stripPy (collapseWs u) = collapseWs u := by
      rw [collapseWs]
      exact stripPy_joinWords hwords
    rw [hstrip, show pyLower (collapseWs u) = collapseWs u from map_eq_self_of_id ht1,
      replaceList_eq_self (show '_' ∈ "_".data by decide) ht2]
    conv_lhs => rw [collapseWs]
    rw [show splitWs (collapseWs u) = splitWs u by rw [collapseWs]; exact splitWs_joinWords hwords]
    rfl
  have hx : ∀ c ∈ pyLower (stripPy s.data), lowerChar c = c := by
    intro c hc
    obtain ⟨d, _, rfl⟩ := List.mem_map.1 hc
    exact lowerChar_idem d
  exact key (pyLower (stripPy s.data)) hx

/-! ### Fuzzy-match (`get_close_matches`) lemmas -/

theorem betterCand_irrefl (ratio : String → String → ℚ) (word b : String) :
    betterCand ratio word b b = false := by
  simp [betterCand, lt_irrefl]

theorem betterCand_trans {ratio : String → String → ℚ} {word x y z : String}
    (h1 : betterCand ratio word x y = true)
    (h2 : betterCand ratio word y z = true) :
    betterCand ratio word x z = true := by
  simp only [betterCand, Bool.or_eq_true, Bool.and_eq_true, decide_eq_true_eq] at h1 h2 ⊢
  rcases h1 with h1 | ⟨h1e, h1s⟩ <;> rcases h2 with h2 | ⟨h2e, h2s⟩
  · exact Or.inl (lt_trans h2 h1)
  · exact Or.inl (h2e ▸ h1)
  · exact Or.inl (h1e ▸ h2)
  · exact Or.inr ⟨h2e.trans h1e, lt_trans h2s h1s⟩

theorem betterCand_total {ratio : String → String → ℚ} {word x y : String}
    (h : betterCand ratio word x y = false) :
    ratio x word < ratio y word ∨ (ratio x word = ratio y word ∧ x ≤ y) := by
  simp only [betterCand, Bool.or_eq_false_iff, Bool.and_eq_false_iff,
    decide_eq_false_iff_not, not_lt] at h
  obtain ⟨h1, h2⟩ := h
  rcases lt_or_eq_of_le h1 with hlt | heq
  · exact Or.inl hlt
  · refine Or.inr ⟨heq, ?_⟩
    rcases h2 with hne | hns
    · exact absurd heq.symm hne
    · exact le_of_not_lt hns

theorem pickBest_eq_some {ratio : String → String → ℚ} {word : String} :
    ∀ (l : List String) (init : Option String) (b : String),
      pickBest ratio word init l = some b → init = some b ∨ b ∈ l := by
  intro l
  induction l with
  | nil =>
    intro init b h
    rw [pickBest] at h
    exact Or.inl h
  | cons x xs ih =>
    intro init b h
    cases init with
    | none =>
      rw [pickBest] at h
      rcases ih (some x) b h with hx | hmem
      · injection hx with hx
        exact Or.inr (hx ▸ List.mem_cons_self x xs)
      · exact Or.inr (List.mem_cons_of_mem x hmem)
    | some v =>
      rw [pickBest] at h
      rcases ih _ b h with hx | hmem
      · by_cases hb : betterCand ratio word x v = true
        · rw [if_pos hb] at hx
          injection hx with hx
          exact Or.inr (hx ▸ List.mem_cons_self x xs)
        · rw [if_neg hb] at hx
          exact Or.inl hx
      · exact Or.inr (List.mem_cons_of_mem x hmem)

theorem pickBest_maximal {ratio : String → String → ℚ} {word : String} :
    ∀ (l : List String) (init : Option String) (b : String),
      pickBest ratio word init l = some b →
      (∀ v, init = some v → betterCand ratio word v b = false) ∧
      ∀ x ∈ l, betterCand ratio word x b = false := by
  intro l
  induction l with
  | nil =>
    intro init b h
    rw [pickBest] at h
    refine ⟨?_, by simp⟩
    intro v hv
    rw [hv] at h
    injection h with h
    rw [h]
    exact betterCand_irrefl ratio word b
  | cons x xs ih =>
    intro init b h
    cases init with
    | none =>
      rw [pickBest] at h
      obtain ⟨hinit, htail⟩ := ih (some x) b h
      refine ⟨fun v hv => by simp at hv, ?_⟩
      intro y hy
      rcases List.mem_cons.1 hy with rfl | hys
      · exact hinit y rfl
      · exact htail y hys
    | some v =>
      rw [pickBest] at h
      obtain ⟨hinit, htail⟩ := ih _ b h
      by_cases hb : betterCand ratio word x v = true
      · rw [if_pos hb] at hinit
        have hxb : betterCand ratio word x b = false := hinit x rfl
        refine ⟨?_, ?_⟩
        · intro u hu
          have hu' : v = u := by injection hu
          rw [← hu']
          cases hvb : betterCand ratio word v b with
          | false => rfl
          | true =>
            rw [betterCand_trans hb hvb] at hxb
            simp at hxb
        · intro y hy
          rcases List.mem_cons.1 hy with rfl | hys
          · exact hxb
          · exact htail y hys
      · rw [if_neg hb] at hinit
        have hvb : betterCand ratio word v b = false := hinit v rfl
        refine ⟨?_, ?_⟩
        · intro u hu
          have hu' : v = u := by injection hu
          rw [← hu']
          exact hvb
        · intro y hy
          rcases List.mem_cons.1 hy with rfl | hys
          · cases hyb : betterCand ratio word y b with
            | false => rfl
            | true =>
              exfalso
              have h1 := betterCand_total
                (show betterCand ratio word y v = false by simpa using hb)
              have h2 := betterCand_total hvb
              simp only [betterCand, Bool.or_eq_true, Bool.and_eq_true,
                decide_eq_true_eq] at hyb
              rcases h1 with h1 | ⟨h1e, h1s⟩ <;> rcases h2 with h2 | ⟨h2e, h2s⟩ <;>
                rcases hyb with hyb | ⟨hybe, hybs⟩ <;>
                first
                  | linarith
                  | exact absurd (lt_of_le_of_lt (le_trans h1s h2s) hybs) (lt_irrefl _)
          · exact htail y hys

theorem getCloseMatches1_some {ratio : String → String → ℚ} {cutoff : ℚ}
    {poss : List String} {word b : String}
    (h : getCloseMatches1 ratio cutoff poss word = some b) :
    b ∈ poss ∧ cutoff ≤ ratio b word ∧
      ∀ x ∈ poss, cutoff ≤ ratio x word →
        (ratio x word < ratio b word ∨ (ratio x word = ratio b word ∧ x ≤ b)) := by
  rw [getCloseMatches1] at h
  have hmem : b ∈ poss.filter (fun x => cutoff ≤ ratio x word) := by
    rcases pickBest_eq_some _ none b h with hinit | hm
    · simp at hinit
    · exact hm
  rw [List.mem_filter, decide_eq_true_eq] at hmem
  refine ⟨hmem.1, hmem.2, ?_⟩
  intro x hx hcx
  have hxf : x ∈ poss.filter (fun x => cutoff ≤ ratio x word) := by
    rw [List.mem_filter, decide_eq_true_eq]
    exact ⟨hx, hcx⟩
  exact betterCand_total ((pickBest_maximal _ none b h).2 x hxf)

theorem getCloseMatches1_none {ratio : String → String → ℚ} {cutoff : ℚ}
    {poss : List String} {word : String}
    (h : ∀ x ∈ poss, ¬ (cutoff ≤ ratio x word)) :
    getCloseMatches1 ratio cutoff poss word = none := by
  rw [getCloseMatches1, List.filter_eq_nil_iff.2, pickBest]
  intro x hx
  rw [decide_eq_true_eq]
  exact h x hx

/-! ### Consolidator lemmas -/

namespace Consolidator

theorem allContribs_pair (codes : List Int) (a b : OutSheet) :
    allContribs codes [some a, some b] =
      fileContrib codes a ++ (fileContrib codes b ++ []) := rfl

theorem allContribs_skip_none (codes : List Int) (fs₁ fs₂ : List (Option OutSheet)) :
    allContribs codes (fs₁ ++ none :: fs₂) = allContribs codes (fs₁ ++ fs₂) := by
  rw [allContribs, allContribs, List.map_append, List.map_append,
    List.flatten_append, List.flatten_append, List.map_cons, List.flatten_cons]
  rfl

theorem allTimes_skip_none (fs₁ fs₂ : List (Option OutSheet)) :
    allTimes (fs₁ ++ none :: fs₂) = allTimes (fs₁ ++ fs₂) := by
  rw [allTimes, allTimes, List.map_append, List.map_append,
    List.flatten_append, List.flatten_append, List.map_cons, List.flatten_cons]
  rfl

theorem consolidate_skip_none (tplHeader : List (Option Int))
    (fs₁ fs₂ : List (Option OutSheet)) :
    consolidate tplHeader (fs₁ ++ none :: fs₂) = consolidate tplHeader (fs₁ ++ fs₂) := by
  rw [consolidate, consolidate]
  simp only [consolidatedValue, allContribs_skip_none, allTimes_skip_none]

theorem mem_allContribs_code (codes : List Int) (files : List (Option OutSheet))
    {t c : Int} {v : ℚ} (h : ((t, c), v) ∈ allContribs codes files) : c ∈ codes := by
  rw [allContribs, List.mem_flatten] at h
  obtain ⟨contrib, hcf, hmem⟩ := h
  rw [List.mem_map] at hcf
  obtain ⟨f, _, hfe⟩ := hcf
  subst hfe
  cases f with
  | none => simp at hmem
  | some f =>
    simp only [fileContrib, List.mem_flatten] at hmem
    obtain ⟨rowc, hrc, hmem2⟩ := hmem
    rw [List.mem_map] at hrc
    obtain ⟨row, _, hre⟩ := hrc
    subst hre
    cases hrow : row.1 with
    | none => rw [hrow] at hmem2; simp at hmem2
    | some t' =>
      rw [hrow] at hmem2
      simp only [rowContrib, List.mem_filterMap] at hmem2
      obtain ⟨code, hcode, heq⟩ := hmem2
      cases hcc : codeToCol f.header code with
      | none => rw [hcc] at heq; simp at heq
      | some i =>
        simp only [hcc] at heq
        cases hcell : row.2.getD i none with
        | none => simp only [hcell] at heq; simp at heq
        | some v' =>
          simp only [hcell, Option.some.injEq, Prod.mk.injEq] at heq
          rw [heq.1.2] at hcode
          exact hcode

end Consolidator

/-! ### Matrix-builder lemmas -/

theorem matrixValidValues_none (rs : List CleanRec) (target : List Int) :
    matrixValidValues (buildMatrixGrid rs target none) = pivotValidValues rs target := by
  rw [matrixValidValues, buildMatrixGrid, pivotValidValues]
  generalize pivotTimes rs = L
  induction L with
  | nil => rfl
  | cons t ts ih =>
    rw [List.map_cons, List.map_cons, List.flatten_cons, List.flatten_cons,
      List.filterMap_append, ih, List.filterMap_map]
    congr 1
    apply List.filterMap_congr
    intro c _
    simp only [Function.comp_apply, id_eq]
    cases pivotLast rs t c <;> rfl

theorem buildMatrixGrid_fill_of_no_missing (rs : List CleanRec) (target : List Int)
    (f : ℚ) (h : preFillMissingCount rs target = 0) :
    buildMatrixGrid rs target (some f) = buildMatrixGrid rs target none := by
  have hsum : ∀ x ∈ (pivotTimes rs).map
      (fun t => (target.filter (fun c => pivotLast rs t c = none)).length), x = 0 := by
    rw [← List.sum_eq_zero_iff]
    exact h
  have hcell : ∀ t ∈ pivotTimes rs, ∀ c ∈ target, pivotLast rs t c ≠ none := by
    intro t ht c hc hn
    have h0 := hsum _ (List.mem_map_of_mem _ ht)
    rw [List.length_eq_zero] at h0
    have hcmem : c ∈ target.filter (fun c => pivotLast rs t c = none) := by
      rw [List.mem_filter, decide_eq_true_eq]
      exact ⟨hc, hn⟩
    rw [h0] at hcmem
    simp at hcmem
  rw [buildMatrixGrid, buildMatrixGrid]
  congr 1
  apply List.map_congr_left
  intro t ht
  apply List.map_congr_left
  intro c hc
  cases hp : pivotLast rs t c with
  | some v => rfl
  | none => exact absurd hp (hcell t ht c hc)

/-! ### Claim theorems -/

/-- Claim C1 (amended): for the flow, volume and observed-precipitation
workflows, the station columns of the built matrix are exactly
`sorted(set(stations sheet) ∪ set(data-sheet header codes))` — sorted
ascending, duplicate-free, independent of the input records.  The
precipitation-model workflow instead keeps the template data-sheet header
codes *in header order* and appends the sorted missing codes (the union also
taking in the input codes), so its columns are the built station order, not
the sorted union. -/
theorem claim_C1_station_columns (rs : List CleanRec) (sheet dataCodes : List Int)
    (fill : Option ℚ) (order : List Int) (f : ℚ)
    (existing sheetC inputC : List Int) :
    (buildMatrixGrid rs (FlowObserved.targetCodes sheet dataCodes) fill).cols =
      FlowObserved.targetCodes sheet dataCodes ∧
    VolumeObserved.targetCodes sheet dataCodes = FlowObserved.targetCodes sheet dataCodes ∧
    PrecipObserved.targetCodes sheet dataCodes = FlowObserved.targetCodes sheet dataCodes ∧
    List.Sorted (· ≤ ·) (FlowObserved.targetCodes sheet dataCodes) ∧
    (FlowObserved.targetCodes sheet dataCodes).Nodup ∧
    (∀ c, c ∈ FlowObserved.targetCodes sheet dataCodes ↔ c ∈ sheet ∨ c ∈ dataCodes) ∧
    (PrecipModel.dataframe_to_matrix rs order f).cols = order ∧
    (PrecipModel.build_station_order existing sheetC inputC).1 =
      existing ++ (PrecipModel.build_station_order existing sheetC inputC).2 := by
  refine ⟨rfl, rfl, rfl, sortedSet_sorted _, sortedSet_nodup _, ?_, rfl, rfl⟩
  intro c
  rw [FlowObserved.targetCodes, mem_sortedSet, List.mem_append]

/-- Claim C1, counterexample: with template data-sheet header codes `[5, 3]`
(in that column order) and empty stations sheet and input, the
precipitation-model workflow's matrix columns are `[5, 3]`, which is not the
ascending sorted union `[3, 5]` — refuting "the station columns … are exactly
sorted(target_codes) … for the matrix builder of each of the four
workflows". -/
theorem claim_C1_counterexample :
    (PrecipModel.build_station_order [5, 3] [] []).1 = [5, 3] ∧
    (PrecipModel.dataframe_to_matrix []
      (PrecipModel.build_station_order [5, 3] [] []).1 0).cols = [5, 3] ∧
    ¬ List.Sorted (· ≤ ·) ((PrecipModel.build_station_order [5, 3] [] []).1) := by
  refine ⟨by decide, by decide, ?_⟩
  intro hsort
  have : (PrecipModel.build_station_order [5, 3] [] []).1 = [5, 3] := by decide
  rw [this] at hsort
  exact absurd hsort (by decide)

/-- Claim C4 (amended): every workflow's `normalize_text` is idempotent, and
the flow workflow's normalizer is case- and diacritic-insensitive on the
spec's example, `normalize("Débit (m3/s)") == normalize("debit")`.  The
observed-precipitation workflow's normalizer is idempotent but strips
neither diacritics nor unit suffixes, so the example equation does not hold
for it. -/
theorem claim_C4_normalize_idempotent (s : String) :
    FlowObserved.normalize_text (FlowObserved.normalize_text s) =
      FlowObserved.normalize_text s ∧
    VolumeObserved.normalize_text (VolumeObserved.normalize_text s) =
      VolumeObserved.normalize_text s ∧
    PrecipObserved.normalize_text (PrecipObserved.normalize_text s) =
      PrecipObserved.normalize_text s ∧
    FlowObserved.normalize_text "Débit (m3/s)" = FlowObserved.normalize_text "debit" :=
  ⟨flowNormalize_idem s, volumeNormalize_idem s,
   precipObsNormalize_idem s, by decide⟩

/-- Claim C4, counterexample: the observed-precipitation workflow's
`normalize_text` keeps diacritics and unit suffixes
(`normalize("Débit (m3/s)") = "débit (m3/s)" ≠ "debit" = normalize("debit")`),
refuting "case- and diacritic-insensitive … for the normalize_text function
of every workflow, including the observed-precipitation workflow's
normalizer". -/
theorem claim_C4_counterexample :
    PrecipObserved.normalize_text "Débit (m3/s)" ≠
      PrecipObserved.normalize_text "debit" := by decide

/-- Claim C5 (amended): the summary statistics are computed over the
non-null cells of the matrix *after* the configured fill value has been
substituted (`valid = Series(matrix.ravel()).dropna()` runs after
`fillna`).  With the leave-null policy they coincide with the statistics of
the valid pivot cells, and whenever no cell is missing the fill value indeed
cannot change them; but a numeric fill value does change the recorded
statistics as soon as a cell is missing (see the counterexample). -/
theorem claim_C5_fill_statistics (rs : List CleanRec) (target : List Int) (f : ℚ) :
    matrixValidValues (buildMatrixGrid rs target none) = pivotValidValues rs target ∧
    (preFillMissingCount rs target = 0 →
      matrixStats (buildMatrixGrid rs target (some f)) =
        matrixStats (buildMatrixGrid rs target none)) := by
  refine ⟨matrixValidValues_none rs target, ?_⟩
  intro h
  rw [buildMatrixGrid_fill_of_no_missing rs target f h]

/-- Claim C5, witness for `claim_C5_fill_statistics`: a one-cell matrix with
nothing missing, where filling with 0 leaves the statistics unchanged. -/
theorem claim_C5_witness :
    matrixStats (buildMatrixGrid [⟨0, 1, some 5⟩] [1] (some 0)) =
      matrixStats (buildMatrixGrid [⟨0, 1, some 5⟩] [1] none) :=
  (claim_C5_fill_statistics [⟨0, 1, some 5⟩] [1] 0).2 (by decide)

/-- Claim C5, counterexample: one record (time 0, station 1, value 5) and
target codes `[1, 2]` leave the station-2 column missing; filling with 0
changes the recorded minimum from 5 to 0, so the statistics are *not*
computed before the fill substitution — refuting "choosing a numeric fill
value does not change the recorded statistics". -/
theorem claim_C5_counterexample :
    matrixStats (buildMatrixGrid [⟨0, 1, some 5⟩] [1, 2] (some 0)) ≠
      matrixStats (buildMatrixGrid [⟨0, 1, some 5⟩] [1, 2] none) := by
  intro h
  have h0 : (matrixStats (buildMatrixGrid [⟨0, 1, some 5⟩] [1, 2] (some 0))).vmin =
      some 0 := by decide
  have h5 : (matrixStats (buildMatrixGrid [⟨0, 1, some 5⟩] [1, 2] none)).vmin =
      some 5 := by decide
  rw [h, h5] at h0
  exact absurd h0 (by decide)

/-- Claim C7: deduplication on the (time, station) key keeps exactly the
last occurrence in file order — for every key, the kept records with that
key are precisely the last matching record of the input — the number of
dropped rows is the `duplicated(...)` mask count reported as
`duplicate_rows_removed`, and two rows for the same key with values 10
then 12 clean to the single value 12. -/
theorem claim_C7_dedup_keep_last (rs : List CleanRec) (k : Int × Int) :
    ((dropDupKeepLast rs).filter (fun r => r.key = k) =
      ((rs.filter (fun r => r.key = k)).getLast?).toList) ∧
    ((dropDupKeepLast rs).length + dupMaskCount rs = rs.length) ∧
    dropDupKeepLast [⟨0, 1, some 10⟩, ⟨0, 1, some 12⟩] = [⟨0, 1, some 12⟩] :=
  ⟨dropDupKeepLast_filter_key k rs, dropDupKeepLast_length_add_count rs, by decide⟩

/-- Claim C8 (amended): resampling reduces each (station, bucket) with the
single selected aggregation (`[1,2,3]` gives mean 2 and sum 6), and all six
aggregations are selectable in the flow workflow; the observed-volume
workflow offers only five — `sum` is missing from its argparse choices, and
its dispatch falls back to the median for any name other than mean, last,
min, max.  On the five shared names the two dispatches agree. -/
theorem claim_C8_resample_aggregations (vals : List ℚ) (a : String) :
    FlowObserved.applyAgg "mean" [1, 2, 3] = some 2 ∧
    FlowObserved.applyAgg "sum" [1, 2, 3] = some 6 ∧
    FlowObserved.aggChoices = ["mean", "last", "sum", "max", "min", "median"] ∧
    VolumeObserved.aggChoices = ["mean", "last", "min", "max", "median"] ∧
    (a ∈ VolumeObserved.aggChoices →
      VolumeObserved.applyAgg a vals = FlowObserved.applyAgg a vals) := by
  refine ⟨?_, ?_, rfl, rfl, ?_⟩
  · norm_num [FlowObserved.applyAgg, listMean]
  · rw [FlowObserved.applyAgg, if_neg (by decide), if_neg (by decide), if_pos rfl]
    norm_num
  · intro ha
    fin_cases ha <;> rfl

/-- Claim C8, witness for `claim_C8_resample_aggregations`: the flow and
volume dispatches agree on `"last"`. -/
theorem claim_C8_witness :
    VolumeObserved.applyAgg "last" [3, 7] = FlowObserved.applyAgg "last" [3, 7] :=
  (claim_C8_resample_aggregations [3, 7] "last").2.2.2.2 (by decide)

/-- Claim C8, counterexample: `"sum"` is an aggregation choice of the flow
workflow but not of the observed-volume workflow — refuting "each of the six
aggregations mean, last, sum, min, max, median is selectable in every
resampling workflow, including the observed-volume workflow". -/
theorem claim_C8_counterexample :
    "sum" ∈ FlowObserved.aggChoices ∧ "sum" ∉ VolumeObserved.aggChoices := by
  decide

/-- Claim C9 (amended): the CSV adapter raises a structural error exactly
when the parsed table has fewer than 2 columns, and the HTML-table-as-.xls
adapter raises exactly when fewer than 2 non-empty rows were parsed — it
performs no column-count check at all (a one-column HTML table parses
without error, see the counterexample). -/
theorem claim_C9_structural_guards (trs : List (List String))
    (header : List String) (body : List (List String)) :
    ((∃ e, FlowObserved.parse_html_xls trs = Except.error e) ↔
      (trs.filter (fun r => !r.isEmpty)).length < 2) ∧
    ((∃ e, FlowObserved.parse_csv header body = Except.error e) ↔
      header.length < 2) := by
  constructor
  · rcases hfil : trs.filter (fun r => !r.isEmpty) with _ | ⟨a, _ | ⟨b, rest⟩⟩ <;>
      simp [FlowObserved.parse_html_xls, hfil]
  · rw [FlowObserved.parse_csv]
    by_cases hlen : header.length < 2
    · rw [if_pos hlen]
      simp [hlen]
    · rw [if_neg hlen]
      simp [hlen]

/-- Claim C9, counterexample: a one-column HTML table with two rows parses
successfully (header `["h"]`, one data row `["1"]`) — the HTML adapter does
not raise on fewer than 2 columns, refuting "the HTML-table-as-.xls adapter
raises both when fewer than 2 table rows are parsed and when fewer than 2
columns are present". -/
theorem claim_C9_counterexample :
    FlowObserved.parse_html_xls [["h"], ["1"]] = Except.ok (["h"], [["1"]]) := by
  rfl

/-- Claim C2: the station resolver normalizes each label and tries an exact
alias-table lookup first; fuzzy matching runs only when the exact lookup
fails, and assigns a code only when the best-matching alias key (by
similarity ratio, ties by string order) has ratio at or above the fixed
cutoff — 0.82 for the flow workflow and 0.80 for the volume workflow; a
label with neither an exact nor an above-cutoff fuzzy match is unmapped and
every record carrying it is dropped. -/
theorem claim_C2_alias_resolver (tbl : List (String × Int))
    (ratio : String → String → ℚ) (label : String) (rs : List SourceRec) :
    (∀ code, lookupFirst tbl (FlowObserved.normalize_text label) = some code →
      FlowObserved.resolveColumn tbl ratio label = (some code, MapMethod.exact)) ∧
    (∀ res, FlowObserved.resolveColumn tbl ratio label = (res, MapMethod.fuzzy) →
      lookupFirst tbl (FlowObserved.normalize_text label) = none ∧
      ∃ b, getCloseMatches1 ratio (mkRat 82 100) (tbl.map Prod.fst)
            (FlowObserved.normalize_text label) = some b ∧
        res = lookupFirst tbl b ∧
        b ∈ tbl.map Prod.fst ∧
        mkRat 82 100 ≤ ratio b (FlowObserved.normalize_text label) ∧
        ∀ x ∈ tbl.map Prod.fst,
          mkRat 82 100 ≤ ratio x (FlowObserved.normalize_text label) →
          (ratio x (FlowObserved.normalize_text label) <
              ratio b (FlowObserved.normalize_text label) ∨
            (ratio x (FlowObserved.normalize_text label) =
              ratio b (FlowObserved.normalize_text label) ∧ x ≤ b))) ∧
    ((lookupFirst tbl (FlowObserved.normalize_text label) = none ∧
      ∀ x ∈ tbl.map Prod.fst,
        ¬ (mkRat 82 100 ≤ ratio x (FlowObserved.normalize_text label))) →
      FlowObserved.resolveColumn tbl ratio label = (none, MapMethod.unmapped)) ∧
    (FlowObserved.resolveColumn tbl ratio label = (none, MapMethod.unmapped) →
      mapRecords (FlowObserved.resolveColumn tbl ratio) rs =
        mapRecords (FlowObserved.resolveColumn tbl ratio)
          (rs.filter (fun r => r.label ≠ label))) ∧
    FlowObserved.resolveColumn tbl ratio label =
      resolveLabel FlowObserved.normalize_text tbl ratio (mkRat 82 100) label ∧
    VolumeObserved.resolveColumn tbl ratio label =
      resolveLabel VolumeObserved.normalize_text tbl ratio (mkRat 80 100) label := by
  refine ⟨?_, ?_, ?_, ?_, rfl, rfl⟩
  · intro code h
    rw [FlowObserved.resolveColumn, resolveLabel]
    simp only [h]
  · intro res h
    rw [FlowObserved.resolveColumn, resolveLabel] at h
    cases hcl : lookupFirst tbl (FlowObserved.normalize_text label) with
    | some code => simp only [hcl] at h; simp at h
    | none =>
      simp only [hcl] at h
      cases hgm : getCloseMatches1 ratio (mkRat 82 100) (tbl.map Prod.fst)
          (FlowObserved.normalize_text label) with
      | none => simp only [hgm] at h; simp at h
      | some b =>
        simp only [hgm, Prod.mk.injEq] at h
        obtain ⟨hb1, hb2, hb3⟩ := getCloseMatches1_some hgm
        refine ⟨rfl, b, rfl, ?_, hb1, hb2, hb3⟩
        simp_all
  · intro hyp
    rw [FlowObserved.resolveColumn, resolveLabel]
    simp only [hyp.1, getCloseMatches1_none hyp.2]
  · intro hunm
    induction rs with
    | nil => rfl
    | cons r rest ih =>
      by_cases hl : r.label = label
      · have hfst : (FlowObserved.resolveColumn tbl ratio r.label).1 = none := by
          rw [hl, hunm]
        rw [show (r :: rest).filter (fun r => r.label ≠ label) =
            rest.filter (fun r => r.label ≠ label) from
            List.filter_cons_of_neg (by simp [hl])]
        rw [mapRecords, List.filterMap_cons]
        simp only [hfst]
        rw [← mapRecords, ih]
      · rw [show (r :: rest).filter (fun r => r.label ≠ label) =
            r :: rest.filter (fun r => r.label ≠ label) from
            List.filter_cons_of_pos (by simp [hl])]
        rw [mapRecords, List.filterMap_cons, mapRecords, List.filterMap_cons]
        cases hres : (FlowObserved.resolveColumn tbl ratio r.label).1 with
        | none =>
          simp only [hres]
          rw [← mapRecords, ← mapRecords, ih]
        | some code =>
          simp only [hres]
          rw [← mapRecords, ← mapRecords, ih]

/-- Claim C2, witness for `claim_C2_alias_resolver`: with the alias table
`{"zrarda debit" ↦ 7}`, the label "Zrarda_Débit (m3/s)" normalizes to
"zrarda debit" and resolves exactly to code 7; an unrelated label with no
above-cutoff candidate stays unmapped. -/
theorem claim_C2_witness :
    FlowObserved.resolveColumn [("zrarda debit", 7)] (fun _ _ => 0)
        "Zrarda_Débit (m3/s)" = (some 7, MapMethod.exact) ∧
    FlowObserved.resolveColumn [("zrarda debit", 7)] (fun _ _ => 0)
        "unrelated" = (none, MapMethod.unmapped) :=
  ⟨(claim_C2_alias_resolver [("zrarda debit", 7)] (fun _ _ => 0)
      "Zrarda_Débit (m3/s)" []).1 7 (by decide),
   (claim_C2_alias_resolver [("zrarda debit", 7)] (fun _ _ => 0)
      "unrelated" []).2.2.1 ⟨by decide, by decide⟩⟩

/-- Claim C3: the consolidated matrix has columns equal to the numeric codes
of the template's header row in template order, rows equal to the sorted
deduplicated union of all timestamps found across the input outputs, and
cell values resolved by last-write-wins over the file processing order: when
two files both contribute a value at the same (timestamp, code), the
later-processed file's value is kept, and swapping the two files flips the
cell to the other value. -/
theorem claim_C3_consolidation (tplHeader : List (Option Int))
    (files : List (Option Consolidator.OutSheet))
    (a b : Consolidator.OutSheet) (t c : Int) (va vb : ℚ) :
    (Consolidator.consolidate tplHeader files).header = tplHeader.filterMap id ∧
    List.Sorted (· ≤ ·) (Consolidator.consolidate tplHeader files).timestamps ∧
    (Consolidator.consolidate tplHeader files).timestamps.Nodup ∧
    (∀ ts, ts ∈ (Consolidator.consolidate tplHeader files).timestamps ↔
      ts ∈ Consolidator.allTimes files) ∧
    (Consolidator.consolidate tplHeader files).cellRows =
      (Consolidator.consolidate tplHeader files).timestamps.map (fun ts =>
        (Consolidator.consolidate tplHeader files).header.map
          (Consolidator.consolidatedValue tplHeader files ts)) ∧
    (lookupLast (t, c)
        (Consolidator.fileContrib (tplHeader.filterMap id) b) = some vb →
      Consolidator.consolidatedValue tplHeader [some a, some b] t c = some vb) ∧
    (lookupLast (t, c)
        (Consolidator.fileContrib (tplHeader.filterMap id) a) = some va →
      Consolidator.consolidatedValue tplHeader [some b, some a] t c = some va) := by
  refine ⟨rfl, sortedSet_sorted _, sortedSet_nodup _,
    fun ts => mem_sortedSet, rfl, ?_, ?_⟩
  · intro hb
    rw [Consolidator.consolidatedValue, Consolidator.allContribs_pair,
      List.append_nil, lookupLast_append_right _ _ _ (by rw [hb]; rfl), hb]
  · intro ha
    rw [Consolidator.consolidatedValue, Consolidator.allContribs_pair,
      List.append_nil, lookupLast_append_right _ _ _ (by rw [ha]; rfl), ha]

/-- Claim C3, witness for `claim_C3_consolidation`: two one-cell output
files both writing (timestamp 0, code 1) — values 10 then 12 — consolidate
to 12, and in the swapped processing order to 10. -/
theorem claim_C3_witness :
    Consolidator.consolidatedValue [some 1]
      [some ⟨[some 1], [(some 0, [some 10])]⟩,
       some ⟨[some 1], [(some 0, [some 12])]⟩] 0 1 = some 12 ∧
    Consolidator.consolidatedValue [some 1]
      [some ⟨[some 1], [(some 0, [some 12])]⟩,
       some ⟨[some 1], [(some 0, [some 10])]⟩] 0 1 = some 10 :=
  ⟨(claim_C3_consolidation [some 1] [] ⟨[some 1], [(some 0, [some 10])]⟩
      ⟨[some 1], [(some 0, [some 12])]⟩ 0 1 10 12).2.2.2.2.2.1 (by decide),
   (claim_C3_consolidation [some 1] [] ⟨[some 1], [(some 0, [some 10])]⟩
      ⟨[some 1], [(some 0, [some 12])]⟩ 0 1 10 12).2.2.2.2.2.2 (by decide)⟩

/-- Claim C6: in strict mode a run that accumulated at least one warning
exits non-zero, and everything it had written up to the strict check stays
written — the strict run's write sequence is an initial segment of the
non-strict run's; with no warnings, strict mode changes neither the exit
code nor the writes.  This holds for all four workflows; in the
precipitation-model workflow the strict check precedes the report writes, so
its strict-failure runs stop after the workbook. -/
theorem claim_C6_strict_mode (strict : Bool) (w : List String) :
    (strict = true → w ≠ [] →
      ((FlowObserved.mainTail strict w).2 ≠ 0 ∧
        (VolumeObserved.mainTail strict w).2 ≠ 0 ∧
        (PrecipObserved.mainTail strict w).2 ≠ 0 ∧
        (PrecipModel.mainTail strict w).2 ≠ 0) ∧
      (∃ rest, (FlowObserved.mainTail strict w).1 ++ rest =
        (FlowObserved.mainTail false w).1) ∧
      (∃ rest, (VolumeObserved.mainTail strict w).1 ++ rest =
        (VolumeObserved.mainTail false w).1) ∧
      (∃ rest, (PrecipObserved.mainTail strict w).1 ++ rest =
        (PrecipObserved.mainTail false w).1) ∧
      (∃ rest, (PrecipModel.mainTail strict w).1 ++ rest =
        (PrecipModel.mainTail false w).1)) ∧
    (w = [] →
      FlowObserved.mainTail strict w = FlowObserved.mainTail false w ∧
      VolumeObserved.mainTail strict w = VolumeObserved.mainTail false w ∧
      PrecipObserved.mainTail strict w = PrecipObserved.mainTail false w ∧
      PrecipModel.mainTail strict w = PrecipModel.mainTail false w) := by
  constructor
  · rintro rfl hw
    refine ⟨⟨?_, ?_, ?_, ?_⟩, ⟨[], rfl⟩, ⟨[], rfl⟩, ⟨[], rfl⟩,
      ⟨[Artifact.reportJson, Artifact.reportTxt], ?_⟩⟩
    · simp [FlowObserved.mainTail, hw]
    · simp [VolumeObserved.mainTail, hw]
    · simp [PrecipObserved.mainTail, hw]
    · simp [PrecipModel.mainTail, hw]
    · simp [PrecipModel.mainTail, hw]
  · rintro rfl
    cases strict <;>
      simp [FlowObserved.mainTail, VolumeObserved.mainTail,
        PrecipObserved.mainTail, PrecipModel.mainTail]

/-- Claim C6, witness for `claim_C6_strict_mode`: with one warning, strict
runs of the flow and precipitation-model workflows exit non-zero; with no
warnings, a strict precipitation-model run behaves like a non-strict one. -/
theorem claim_C6_witness :
    (FlowObserved.mainTail true ["warn"]).2 ≠ 0 ∧
    (PrecipModel.mainTail true ["warn"]).2 ≠ 0 ∧
    PrecipModel.mainTail true [] = PrecipModel.mainTail false [] :=
  ⟨(((claim_C6_strict_mode true ["warn"]).1 rfl (by decide)).1).1,
   (((claim_C6_strict_mode true ["warn"]).1 rfl (by decide)).1).2.2.2,
   ((claim_C6_strict_mode true []).2 rfl).2.2.2⟩

/-- Claim C10: during consolidation a workbook without the `Données` sheet
contributes nothing (the result is the same as if it were absent), every
contributed value's station code comes from the template header (so every
cell of the consolidated output belongs to a template-header code), and the
consolidator records no warning whatsoever. -/
theorem claim_C10_consolidation_exclusions (tplHeader : List (Option Int))
    (fs₁ fs₂ files : List (Option Consolidator.OutSheet)) (t c : Int) (v : ℚ) :
    Consolidator.consolidate tplHeader (fs₁ ++ none :: fs₂) =
      Consolidator.consolidate tplHeader (fs₁ ++ fs₂) ∧
    (((t, c), v) ∈ Consolidator.allContribs (tplHeader.filterMap id) files →
      c ∈ tplHeader.filterMap id) ∧
    ((Consolidator.consolidatedValue tplHeader files t c).isSome →
      c ∈ tplHeader.filterMap id) ∧
    (Consolidator.consolidate tplHeader files).warnings = [] := by
  refine ⟨Consolidator.consolidate_skip_none tplHeader fs₁ fs₂,
    fun h => Consolidator.mem_allContribs_code _ files h, ?_, rfl⟩
  intro h
  obtain ⟨v', hv'⟩ := Option.isSome_iff_exists.1 h
  rw [Consolidator.consolidatedValue] at hv'
  exact Consolidator.mem_allContribs_code _ files (lookupLast_eq_some_mem hv')

/-- Claim C10, witness for `claim_C10_consolidation_exclusions`: a concrete
contribution at (timestamp 0, code 1) indeed carries a template-header
code. -/
theorem claim_C10_witness :
    (1 : Int) ∈ ([some (1 : Int)] : List (Option Int)).filterMap id :=
  (claim_C10_consolidation_exclusions [some 1] [] []
    [some ⟨[some 1], [(some 0, [some 10])]⟩] 0 1 10).2.1 (by decide)
